import Mathlib

/-!
A shallow embedding of `ament_cobra/main.py` (the `ament_cobra` linter driver).

Conventions used throughout:

* Filesystem paths are absolute and are represented by their list of
  components (`List String`); the path string is recovered by `joinPath`,
  with `os.sep = "/"`.  `os.path.abspath` / `os.path.normpath` /
  `os.path.realpath` are modelled as the identity on these already-absolute,
  already-normalized component paths (the model has no symlinks, `.` or `..`
  entries).
* Python string comparison (`<` on `str`, used by `sorted` and by the
  `repo_root > base_path` test) is lexicographic on code points; it is
  modelled by `charListLt` / `pyStrLt` below, executable by the kernel.
* Side effects (prints, child processes, file writes) are modelled as an
  explicit trace of `Effect` values; an uncaught Python exception is
  modelled as an aborted result (the interpreter then exits with status 1).
-/

/-- Python string `<`: lexicographic comparison of the code-point sequences. -/
def charListLt : List Char → List Char → Bool
  | [], [] => false
  | [], _ :: _ => true
  | _ :: _, [] => false
  | a :: as, b :: bs => a < b || (a == b && charListLt as bs)

/-- Python `s < t` on strings. -/
def pyStrLt (s t : String) : Bool := charListLt s.toList t.toList

/-- Python `s <= t` on strings (total order, so `s <= t ↔ ¬ t < s`);
this is the ordering used to model Python `sorted` / `list.sort`. -/
def pyStrLe (s t : String) : Bool := !(pyStrLt t s)

/-- Python `s.startswith(p)` (also models `option.startswith(('-D', ...))`
for a single choice). -/
def pyStartsWith (s p : String) : Bool := p.toList.isPrefixOf s.toList

/-- The path string of an absolute component path: `joinPath ["a","b"] = "/a/b"`,
`joinPath [] = "/"`. -/
def joinPath : List String → String
  | [] => "/"
  | [c] => "/" ++ c
  | c :: rest => "/" ++ c ++ joinPath rest

/-- The extension part of `os.path.splitext(name)`: the substring from the
last dot on, unless every character before that dot is itself a dot
(so `"f.c" ↦ ".c"`, `".bashrc" ↦ ""`, `"..c" ↦ ""`, `"noext" ↦ ""`). -/
def splitextExt (name : String) : String :=
  let cs := name.toList
  match (List.range cs.length).reverse.find? (fun i => cs.getD i ' ' == '.') with
  | none => ""
  | some i => if (cs.take i).all (fun c => c == '.') then "" else ⟨cs.drop i⟩

/-- `os.path.relpath` on absolute component paths: drop the common
component prefix, go up with `".."` for what remains of `start`, then down
into what remains of `path`. -/
def commonLen : List String → List String → Nat
  | a :: as, b :: bs => if a = b then 1 + commonLen as bs else 0
  | _, _ => 0

/-- Join relative components with `/` (no leading slash); empty ↦ `"."`,
mirroring `os.path.relpath`'s output format. -/
def joinRel : List String → String
  | [] => "."
  | [c] => c
  | c :: rest => c ++ "/" ++ joinRel rest

def relpath (pathC startC : List String) : String :=
  let c := commonLen pathC startC
  joinRel (List.replicate (startC.length - c) ".." ++ pathC.drop c)

/-! ## `append_file_to_group` (main.py lines 416-457)

The regex `re.search('^(.+/NAME)/', path)` matches iff some component of
`path` other than the first equals `NAME` and is not the final (filename)
component; being greedy, `match.group(1)` is the longest such prefix.  At
component level: index `i` is a marker occurrence iff `comps[i] = NAME`,
`1 ≤ i` (the `.+` needs at least one character before `/NAME`) and
`i + 1 < comps.length` (the trailing `/`). -/

def subfolderNames : List String := ["include", "src", "test"]

/-- Largest marker index of `name` in `comps` (the greedy regex match),
`none` when the regex does not match. -/
def lastMarkerIdx (comps : List String) (name : String) : Option Nat :=
  ((List.range comps.length).filter
    (fun i => comps.getD i "" == name && decide (1 ≤ i) && decide (i + 1 < comps.length))).getLast?

/-- The `match_groups` list of main.py line 430, kept as marker indices:
for each subfolder name in order, the index of its (longest) regex match.
The matched group string for index `i` is `joinPath (comps.take (i+1))`. -/
def candIdxs (comps : List String) : List Nat :=
  subfolderNames.filterMap (lastMarkerIdx comps)

/-- main.py lines 432-434: sort the matched groups by string length
(Python's stable sort) and take the last, i.e. the rightmost match of
maximal group-string length.  `none` iff no regex matched. -/
def pickBestIdx (comps : List String) : Option Nat :=
  (candIdxs comps).foldl (fun acc i =>
    match acc with
    | none => some i
    | some j =>
        if (joinPath (comps.take (j + 1))).length ≤ (joinPath (comps.take (i + 1))).length
        then some i else some j) none

/-- main.py lines 438-448: walk from `dirname(path)` up to `/`, returning
the first (deepest) ancestor directory for which the probe reports a
version-control marker (`.git`/`.hg`/`.svn`); the ancestor with `k`
components is `comps.take k`. -/
def findRepoRoot (probe : List String → Bool) (comps : List String) : Option Nat :=
  (List.range comps.length).reverse.find? (fun k => probe (comps.take k))

/-- The group key (`root`) computed by `append_file_to_group` for an
absolute file path `comps`, given the version-control-marker probe:
 `base_path` is the best matched prefix (else `dirname(path)`), `root`
starts as that match (else `''`), and if a repository root was found whose
path string sorts strictly greater than `base_path`, `root` becomes
`relpath(base_path, repo_root)` (main.py lines 419-452). -/
def appendRoot (probe : List String → Bool) (comps : List String) : String :=
  let bestIdx := pickBestIdx comps
  let baseC := match bestIdx with
    | some i => comps.take (i + 1)
    | none => comps.dropLast
  let base_path := joinPath baseC
  let root := match bestIdx with
    | some _ => base_path
    | none => ""
  match findRepoRoot probe comps with
  | some k =>
      if pyStrLt base_path (joinPath (comps.take k)) then relpath baseC (comps.take k)
      else root
  | none => root

/-- Append `path` to `groups[root]`, creating the entry if needed
(Python dict semantics: first matching key updated, new keys at the end). -/
def insertGroup (groups : List (String × List String)) (key path : String) :
    List (String × List String) :=
  match groups with
  | [] => [(key, [path])]
  | (k, l) :: rest =>
      if k = key then (k, l ++ [path]) :: rest else (k, l) :: insertGroup rest key path

/-- `append_file_to_group(groups, path)`. -/
def append_file_to_group (probe : List String → Bool) (groups : List (String × List String))
    (comps : List String) : List (String × List String) :=
  insertGroup groups (appendRoot probe comps) (joinPath comps)

/-! ## Directory walk (`os.walk` loop of `get_file_groups`, main.py lines 301-317)

The filesystem is a finitely-branching tree; `FSDirs` is the child list
(a mutual inductive so that all recursion stays structural and
kernel-computable).  At each directory, in source order: if
`AMENT_IGNORE` occurs among the child names, prune the whole subtree;
otherwise drop subdirectories starting with `.` or `_`, sort the rest,
emit the extension-matching files of this directory in sorted name order,
then recurse into the kept subdirectories in sorted name order.
(The model computes each child's walk before sorting; as the walks are
independent of that order, this is the same list.) -/

mutual
inductive FSTree where
  | node (files : List String) (dirs : FSDirs)
inductive FSDirs where
  | nil
  | cons (name : String) (tree : FSTree) (rest : FSDirs)
end

def dirNames : FSDirs → List String
  | .nil => []
  | .cons n _ r => n :: dirNames r

/-- The child list of a directory as an ordinary list. -/
def dirsToList : FSDirs → List (String × FSTree)
  | .nil => []
  | .cons n t r => (n, t) :: dirsToList r

/-- `'AMENT_IGNORE' in dirnames + filenames`. -/
def hasIgnoreMarker (files : List String) (dirs : FSDirs) : Bool :=
  (dirNames dirs ++ files).contains "AMENT_IGNORE"

/-- `d[0] not in ['.', '_']`. -/
def visibleName (s : String) : Bool :=
  match s.toList with
  | [] => true
  | c :: _ => !(c == '.' || c == '_')

/-- `ext in ('.%s' % e for e in extensions)` with `ext` from `splitext`. -/
def extOk (extensions : List String) (f : String) : Bool :=
  (extensions.map (fun e => "." ++ e)).contains (splitextExt f)

mutual
/-- The files yielded (as absolute component paths, in yield order) by the
`os.walk(path)` loop rooted at directory `dirComps`, after the
`AMENT_IGNORE` pruning, hidden/underscore filtering, sorting and
extension filtering of main.py lines 303-314. -/
def walkTree (extensions : List String) (dirComps : List String) : FSTree → List (List String)
  | .node files dirs =>
    if hasIgnoreMarker files dirs then []
    else
      let sel := (files.insertionSort (fun a b => pyStrLe a b = true)).filter (extOk extensions)
      let kept := ((walkChildren extensions dirComps dirs).filter
          (fun c => visibleName c.1)).insertionSort (fun a b => pyStrLe a.1 b.1 = true)
      sel.map (fun f => dirComps ++ [f]) ++ (kept.map Prod.snd).flatten

/-- The walks of every child directory, labelled by child name. -/
def walkChildren (extensions : List String) (dirComps : List String) :
    FSDirs → List (String × List (List String))
  | .nil => []
  | .cons n t r =>
      (n, walkTree extensions (dirComps ++ [n]) t) :: walkChildren extensions dirComps r
end

/-- An input path: either a regular file or a directory (with its subtree).
`os.path.isdir` / `os.path.isfile` are decided by the constructor. -/
inductive InputPath where
  | file (comps : List String)
  | dir (comps : List String) (tree : FSTree)

/-- `get_file_groups(paths, extensions, exclude_patterns)` (main.py lines
293-323).  `excludes` is the set of real paths obtained from globbing the
exclude patterns (line 294-297); glob expansion itself is a filesystem
query and is modelled by passing its result.  For a directory input the
walk yields candidate files, each checked against `excludes` and appended
to its group; for a file input the path is checked and appended directly. -/
def get_file_groups (probe : List String → Bool) (paths : List InputPath)
    (extensions : List String) (excludes : List String) : List (String × List String) :=
  paths.foldl (fun groups p =>
    match p with
    | .dir comps t =>
        (walkTree extensions comps t).foldl (fun g fp =>
          if excludes.contains (joinPath fp) then g else append_file_to_group probe g fp) groups
    | .file comps =>
        if excludes.contains (joinPath comps) then groups
        else append_file_to_group probe groups comps) []

/-! ## Preprocessor option extraction (main.py lines 143-162)

`item['command'].split()` tokenizes on whitespace runs; the model receives
the token list.  The `for option in options` loop with explicit
`options.__next__()` calls raises `StopIteration` (uncaught, aborting the
run) when a bare `-D`/`-I`/`-U`/`-isystem` is the final token, hence the
`Option` result. -/

def extract_options : List String → Option (List String)
  | [] => some []
  | t :: rest =>
    if t = "-D" ∨ t = "-I" ∨ t = "-U" then
      match rest with
      | x :: r => (extract_options r).map (fun l => t :: x :: l)
      | [] => none
    else if t = "-isystem" then
      match rest with
      | x :: r => (extract_options r).map (fun l => ("-I" ++ x) :: l)
      | [] => none
    else if pyStartsWith t "-D" ∨ pyStartsWith t "-I" ∨ pyStartsWith t "-U" then
      (extract_options rest).map (fun l => t :: l)
    else
      extract_options rest

/-- The `preprocessor_options` computed for one compile-database entry:
for rulesets `basic` and `p10` the extraction loop is skipped and the
options stay `[]` (main.py line 149). -/
def preprocOptions (ruleset : String) (tokens : List String) : Option (List String) :=
  if ruleset = "basic" ∨ ruleset = "p10" then some [] else extract_options tokens

/-- One entry of the compile-database JSON: `file`, `directory`, and the
whitespace tokens of `command`. -/
structure CompileEntry where
  file : String
  directory : String
  command : List String
deriving DecidableEq, Repr

/-- Assoc-list update with Python dict semantics (first matching key is
replaced, new keys appended). -/
def mapSet {α : Type} : List (String × α) → String → α → List (String × α)
  | [], k, v => [(k, v)]
  | (k', v') :: rest, k, v =>
      if k' = k then (k', v) :: rest else (k', v') :: mapSet rest k v

/-- Assoc-list lookup (Python dict `in` / `[]`). -/
def mapGet? {α : Type} : List (String × α) → String → Option α
  | [], _ => none
  | (k', v') :: rest, k => if k' = k then some v' else mapGet? rest k

/-- `options_map` built from the compile-database entries (main.py lines
138-162); `none` when a `StopIteration` escapes the extraction loop. -/
def buildOptionsMap (ruleset : String) :
    List CompileEntry → List (String × (String × List String)) →
    Option (List (String × (String × List String)))
  | [], m => some m
  | e :: es, m =>
      match preprocOptions ruleset e.command with
      | none => none
      | some opts => buildOptionsMap ruleset es (mapSet m e.file (e.directory, opts))

/-! ## Effects, environment and the failure report -/

/-- One observable side effect of the tool: a line on stdout, a line on
stderr, a child-process launch, a file write, a directory creation, or a
file deletion.  (The tool never performs the last one; the constructor
exists so that absence of deletion is expressible.) -/
inductive Effect where
  | print (line : String)
  | eprint (line : String)
  | spawn (cmd : List String)
  | writeFile (path : String)
  | makedirs (path : String)
  | deleteFile (path : String)
deriving DecidableEq, Repr

/-- Result of launching one child process.  `subprocess.Popen` reports a
process that cannot be launched (missing or non-executable binary) by
raising `OSError`/`FileNotFoundError`; `CalledProcessError` is raised only
by the `check_*` helpers, never by `Popen`/`communicate`, but the
constructor is kept because main.py's `except` clause names it.
`ok lines` carries the child's stdout split on newlines. -/
inductive LaunchOutcome where
  | ok (lines : List String)
  | oserror
  | calledProcessError (code : Int)
deriving DecidableEq, Repr

def LaunchOutcome.isOk : LaunchOutcome → Bool
  | .ok _ => true
  | _ => false

/-- One reported issue (the fields of the dict built in main.py lines
246-251). -/
structure Failure where
  filename : String
  line : Nat
  severity : String
  msg : String
deriving DecidableEq, Repr

/-- The hardcoded placeholder failure appended by `invoke_cobra` on every
successful invocation (main.py lines 244-252, marked TODO in the source). -/
def exampleFailure : Failure :=
  ⟨"/home/michael/src/ros2/src/ros2/rcutils/src/logging.c", 895, "error",
    "Macro argument not enclosed in parentheses"⟩

/-- `report`: a `defaultdict(list)` mapping filename to its failures,
in insertion order. -/
abbrev Report : Type := List (String × List Failure)

/-- `report[filename] = []` (resets an existing entry). -/
def reportSet : Report → String → Report
  | [], k => [(k, [])]
  | (k', l) :: rest, k =>
      if k' = k then (k', []) :: rest else (k', l) :: reportSet rest k

/-- `report[filename].append(failure)` (defaultdict: missing key starts at `[]`). -/
def reportAppend : Report → String → Failure → Report
  | [], k, f => [(k, [f])]
  | (k', l) :: rest, k, f =>
      if k' = k then (k', l ++ [f]) :: rest else (k', l) :: reportAppend rest k f

/-- `sum(len(r) for r in report.values())` (main.py line 195). -/
def errorCount (r : Report) : Nat := (r.map (fun kv => kv.2.length)).sum

/-- `' '.join(arguments)`. -/
def joinSpace : List String → String
  | [] => ""
  | [a] => a
  | a :: rest => a ++ " " ++ joinSpace rest

def invalidRulesetMsg (r : String) : String := "Error: Invalid ruleset specified: " ++ r

def missingExeMsg (b : String) : String :=
  "Error: Could not find the \x27" ++ b ++ "\x27 executable"

def noFilesMsg : String := "No files found"

def noProblemsMsg : String := "No problems found"

def errorsMsg (n : Nat) : String := toString n ++ " errors"

def includeWarnMsg : String :=
  "Warning: The include directories from the compile commands file will " ++
  "be used instead of the directories specified using --include_dirs"

/-- The message of the (dead) `except subprocess.CalledProcessError` branch
of `invoke_cobra`; the `%s` renders the exception object, abbreviated here. -/
def cobraFailMsg (c : Int) : String :=
  "The invocation of \x27cobra\x27 failed with error code " ++ toString c ++
  ": CalledProcessError"

def cantSarifMsg (r : String) : String :=
  "Can\x27t generate SARIF file: no input file for ruleset: " ++ r

/-- main.py line 509 passes a plain (non-f) string, so the braces are
printed literally; the bug is preserved. -/
def convertFailMsg : String :=
  "\x27json_convert\x27 failed with error code \x7be.returncode\x7d: \x7be\x7d"

/-- The environment of one run: result of `which`, the tokens of the
`cobra -V` output (`none` = `check_output` raised), the outcome of the
n-th analyzer invocation, the outcome of the `json_convert` launch, the
version-control-marker probe, and the `os.path.exists` probe. -/
structure Env where
  cobraBin : Option String
  versionResult : Option (List String)
  outcomes : Nat → LaunchOutcome
  convertOutcome : LaunchOutcome
  probe : List String → Bool
  pathExists : String → Bool

/-- The parsed command-line arguments (the `paths` positionals are passed
separately).  `compile_cmds` carries the already-parsed JSON entries:
reading and parsing the file is assumed to succeed (a malformed file
aborts the run and is outside every claim). -/
structure Args where
  include_dirs : Option (List String)
  exclude : List String
  ruleset : String
  compile_cmds : Option (List CompileEntry)
  xunit_file : Option String
  sarif_file : Option String
  cobra_version : Bool
  verbose : Bool

def cExtensions : List String := ["c", "cc", "cpp", "cxx"]

def basicArgs : List String := ["-C++", "-comments", "-json"]

def rulesets : List String := ["basic", "cwe", "p10", "jpl", "misra2012"]

def associatedArgs (r : String) : List String := if r = "misra2012" then ["-cpp"] else []

def targetBinary (ruleset : String) : String := if ruleset ≠ "cwe" then "cobra" else "cwe"

/-! ## `invoke_cobra` (main.py lines 224-267)

The `try` block launches the analyzer and drains its stdout.  A launch
failure (`OSError` from `Popen`) is NOT caught — the `except` clause only
names `subprocess.CalledProcessError`, which `Popen`/`communicate` never
raise — so it escapes `invoke_cobra` and `main` (modelled as `.error`).
On success every non-empty stdout line is echoed and, in place of real
parsing (TODO in the source), the hardcoded `exampleFailure` is appended
to `report` under its fixed filename.  `test_failures` is always empty, so
the trailing loop does nothing.  The `except ElementTree.ParseError`
handler is dead code (nothing in the `try` block parses XML). -/
def invoke_cobra (outcome : LaunchOutcome) (arguments : List String) (verbose : Bool)
    (report : Report) : Except (List Effect) (Report × List Effect) :=
  let pre := if verbose then [Effect.print (joinSpace arguments)] else []
  match outcome with
  | .oserror => .error (pre ++ [Effect.spawn arguments])
  | .calledProcessError c =>
      .ok (report, pre ++ [Effect.spawn arguments, Effect.eprint (cobraFailMsg c)])
  | .ok lines =>
      .ok (reportAppend report exampleFailure.filename exampleFailure,
        pre ++ [Effect.spawn arguments] ++ (lines.filter (fun l => l ≠ "")).map Effect.print)

/-- State threaded through the per-group loop of main.py lines 170-192:
the shared mutable `cmd` list, the `report`, the trace so far, and the
number of analyzer invocations already made (used to index
`Env.outcomes`). -/
structure GroupSt where
  cmd : List String
  report : Report
  trace : List Effect
  idx : Nat
deriving Repr

/-- Run one analyzer invocation and fold its effects into the state;
`.error` aborts the whole run (uncaught exception). -/
def invokeStep (env : Env) (verbose : Bool) (arguments : List String) (st : GroupSt) :
    Except GroupSt GroupSt :=
  match invoke_cobra (env.outcomes st.idx) arguments verbose st.report with
  | .error acts => .error ⟨st.cmd, st.report, st.trace ++ acts, st.idx + 1⟩
  | .ok (r, acts) => .ok ⟨st.cmd, r, st.trace ++ acts, st.idx + 1⟩

/-- main.py lines 178-185: with a compile-database, invoke once per file of
the group, inserting the file's extracted options when present and
non-empty. -/
def perFileInvokes (env : Env) (verbose : Bool)
    (omap : List (String × (String × List String))) :
    List String → GroupSt → Except GroupSt GroupSt
  | [], st => .ok st
  | f :: fs, st =>
      let arguments := match mapGet? omap f with
        | some dopts => if dopts.2 ≠ [] then st.cmd ++ dopts.2 ++ [f] else st.cmd ++ [f]
        | none => st.cmd ++ [f]
      match invokeStep env verbose arguments st with
      | .error st' => .error st'
      | .ok st' => perFileInvokes env verbose omap fs st'

/-- One iteration of `for group_name in sorted(groups.keys())` (main.py
lines 170-192).  First every file of the group gets a fresh empty `report`
entry.  Without a compile-database, `arguments = cmd` ALIASES the shared
list: the `-I` include flags and this group's files are appended to `cmd`
itself, so they stay in the command for all later groups. -/
def processOneGroup (env : Env) (args : Args)
    (omap : List (String × (String × List String))) (st : GroupSt)
    (g : String × List String) : Except GroupSt GroupSt :=
  let st0 : GroupSt := ⟨st.cmd, g.2.foldl reportSet st.report, st.trace, st.idx⟩
  match args.compile_cmds with
  | some _ => perFileInvokes env args.verbose omap g.2 st0
  | none =>
      let inclFlags := (match args.include_dirs with
        | some ds => ds
        | none => []).map (fun d => "-I" ++ d)
      let cmd' := st0.cmd ++ inclFlags ++ g.2
      match invokeStep env args.verbose cmd' ⟨cmd', st0.report, st0.trace, st0.idx⟩ with
      | .error st' => .error st'
      | .ok st' => .ok st'

/-- The whole group loop. -/
def runGroups (env : Env) (args : Args)
    (omap : List (String × (String × List String))) :
    List (String × List String) → GroupSt → Except GroupSt GroupSt
  | [], st => .ok st
  | g :: gs, st =>
      match processOneGroup env args omap st g with
      | .error st' => .error st'
      | .ok st' => runGroups env args omap gs st'

/-- `sorted(groups.keys())` with dict lookup: sort the association list by
key (keys are distinct, so stability is irrelevant). -/
def sortGroups (groups : List (String × List String)) : List (String × List String) :=
  groups.insertionSort (fun a b => pyStrLe a.1 b.1 = true)

/-! ## Report emission (main.py lines 460-510) -/

/-- Python `os.path.split`: head is everything before the last `/`
(trailing separators stripped unless the head is all separators),
tail is everything after. -/
def pyPathSplit (s : String) : String × String :=
  let cs := s.toList
  match (List.range cs.length).reverse.find? (fun i => cs.getD i ' ' == '/') with
  | none => ("", s)
  | some i =>
      let head := cs.take (i + 1)
      let stripped := (head.reverse.dropWhile (fun c => c == '/')).reverse
      (if stripped.isEmpty then ⟨head⟩ else ⟨stripped⟩, ⟨cs.drop (i + 1)⟩)

def strDirname (s : String) : String := (pyPathSplit s).1

def strBasename (s : String) : String := (pyPathSplit s).2

/-- `os.path.join` for the two-argument uses in main.py. -/
def pyPathJoin (a b : String) : String :=
  if pyStartsWith b "/" then b
  else if a = "" then b
  else if a.toList.getLast? = some '/' then a ++ b
  else a ++ "/" ++ b

/-- The effects of `write_xunit_file` (main.py lines 460-476): create the
destination directory if missing, then write the file.  The XML content
(`get_xunit_content`) affects no claim and is not modelled. -/
def write_xunit_actions (env : Env) (xunit_file : String) : List Effect :=
  let path := strDirname xunit_file
  (if env.pathExists path then [] else [Effect.makedirs path]) ++ [Effect.writeFile xunit_file]

/-- The static table of main.py lines 489-495; the outer `none` is the
`KeyError` for a ruleset outside the table (unreachable: `main` has
already validated the ruleset). -/
def rulesetToFilename (r : String) : Option (Option String) :=
  if r = "basic" then some (some "_Basic_.txt")
  else if r = "cwe" then some none
  else if r = "p10" then some (some "_P10_.txt")
  else if r = "jpl" then some (some "_JPL_.txt")
  else if r = "misra2012" then some none
  else none

/-- The effects of `write_sarif_file` (main.py lines 479-510): report and
return when the ruleset has no intermediate file; otherwise launch
`json_convert` on the intermediate file and write its stdout to the
destination.  As in `invoke_cobra`, an `OSError` from `Popen` is not
caught by the `except subprocess.CalledProcessError` clause and aborts the
run (`.error`).  The function's `return 1` values are discarded by `main`.
No deletion of the intermediate file appears anywhere. -/
def write_sarif_run (env : Env) (sarif_file ruleset : String) :
    Except (List Effect) (List Effect) :=
  let folder_name := strBasename (strDirname sarif_file)
  match rulesetToFilename ruleset with
  | none => .error []
  | some none => .ok [Effect.eprint (cantSarifMsg ruleset)]
  | some (some fname) =>
      let cmd := ["json_convert", "-sarif", "-f", pyPathJoin folder_name fname]
      match env.convertOutcome with
      | .oserror => .error [Effect.spawn cmd]
      | .calledProcessError _ => .ok [Effect.spawn cmd, Effect.eprint convertFailMsg]
      | .ok _ => .ok [Effect.spawn cmd, Effect.writeFile sarif_file]

/-! ## `main` (main.py lines 43-213) -/

/-- The observable result of one run: the process exit status, the ordered
effect trace, and whether the run ended in an uncaught exception (in which
case the interpreter exits with status 1 after a traceback). -/
structure MainResult where
  exit : Nat
  trace : List Effect
  aborted : Bool
deriving DecidableEq, Repr

/-- `main(argv)`: the complete control flow of main.py lines 104-213 over
the abstract environment.  In order: locate the analyzer executable; run
`cobra -V` and parse its version (6 whitespace tokens expected, else
`RuntimeError`); handle `--cobra-version`; discover and group the files;
validate the ruleset; warn if both a compile-database and include dirs
were given; build the options map; run the group loop; print the summary
and compute `rc` from the issue count; emit the xunit and SARIF reports
(their return values are discarded); return `rc`. -/
def mainRun (env : Env) (args : Args) (paths : List InputPath) : MainResult :=
  match env.cobraBin with
  | none => ⟨1, [Effect.eprint (missingExeMsg (targetBinary args.ruleset))], false⟩
  | some bin =>
    let t0 := [Effect.spawn [bin, "-V"]]
    match env.versionResult with
    | none => ⟨1, t0, true⟩
    | some toks =>
      if toks.length ≠ 6 then ⟨1, t0, true⟩
      else if args.cobra_version then ⟨0, t0 ++ [Effect.print (toks.getD 1 "")], false⟩
      else
        let groups := get_file_groups env.probe paths cExtensions args.exclude
        if groups = [] then ⟨1, t0 ++ [Effect.eprint noFilesMsg], false⟩
        else if args.ruleset ∈ rulesets then
          let cmd1 := (bin :: basicArgs) ++ ["-f", args.ruleset] ++ associatedArgs args.ruleset
          let warn := if args.compile_cmds.isSome &&
              (match args.include_dirs with | some ds => !ds.isEmpty | none => false) then
            [Effect.print includeWarnMsg] else []
          match buildOptionsMap args.ruleset
              (match args.compile_cmds with | some es => es | none => []) [] with
          | none => ⟨1, t0 ++ warn, true⟩
          | some omap =>
            match runGroups env args omap (sortGroups groups) ⟨cmd1, [], [], 0⟩ with
            | .error st => ⟨1, t0 ++ warn ++ st.trace, true⟩
            | .ok st =>
              let ec := errorCount st.report
              let sumTr := if ec = 0 then [Effect.print noProblemsMsg]
                else [Effect.eprint (errorsMsg ec)]
              let xTr := match args.xunit_file with
                | some xf => write_xunit_actions env xf
                | none => []
              match (match args.sarif_file with
                | some sf => write_sarif_run env sf args.ruleset
                | none => .ok []) with
              | .error sTr => ⟨1, t0 ++ warn ++ st.trace ++ sumTr ++ xTr ++ sTr, true⟩
              | .ok sTr =>
                  ⟨if ec = 0 then 0 else 1, t0 ++ warn ++ st.trace ++ sumTr ++ xTr ++ sTr,
                    false⟩
        else ⟨1, t0 ++ [Effect.eprint (invalidRulesetMsg args.ruleset)], false⟩

/-! ## Auxiliary definitions used only to state the claims -/

/-- The child-process launches of a trace, in order. -/
def spawnCmds (tr : List Effect) : List (List String) :=
  tr.filterMap (fun a => match a with | .spawn c => some c | _ => none)

/-- The group mapping a run computes (mirrors the call in main.py line 117). -/
def groupsOf (env : Env) (args : Args) (paths : List InputPath) : List (String × List String) :=
  get_file_groups env.probe paths cExtensions args.exclude

/-- The issue count accumulated by the group loop of a run (main.py line
195), read off the final loop state whether or not the loop aborted. -/
def countOf (env : Env) (args : Args) (paths : List InputPath) : Nat :=
  let cmd1 := (match env.cobraBin with | some b => b | none => "cobra") :: basicArgs ++
    ["-f", args.ruleset] ++ associatedArgs args.ruleset
  let omap := (buildOptionsMap args.ruleset
    (match args.compile_cmds with | some es => es | none => []) []).getD []
  match runGroups env args omap (sortGroups (groupsOf env args paths)) ⟨cmd1, [], [], 0⟩ with
  | .error st => errorCount st.report
  | .ok st => errorCount st.report

/-- A sane environment for an analysis run: the version query answers with
the expected 6 tokens, every analyzer launch succeeds, and the
`json_convert` launch succeeds. -/
def envSane (env : Env) : Prop :=
  (∃ toks, env.versionResult = some toks ∧ toks.length = 6) ∧
  (∀ n, (env.outcomes n).isOk = true) ∧ env.convertOutcome.isOk = true

/-- The compile-database, if given, survives option extraction (no
`StopIteration`). -/
def optsOk (args : Args) : Prop :=
  (buildOptionsMap args.ruleset
    (match args.compile_cmds with | some es => es | none => []) []).isSome = true

/-- The SARIF writer has no intermediate input file for this ruleset
(main.py lines 489-499). -/
def sarifUnsupported (r : String) : Prop := rulesetToFilename r = some none

/-- Claim C7's group-key rule, written from the claim's words: take the
longest ancestor path prefix ending in `include`, `src` or `test` (at
component level: the largest `i` with `comps[i]` a marker that is not the
final, filename component); if a version-control root was found and its
path string sorts greater than that base, the key is the base relative to
that root; no marker match gives the empty-string key. -/
def claimGroupKey (probe : List String → Bool) (comps : List String) : String :=
  match ((List.range comps.length).filter
      (fun i => (subfolderNames.contains (comps.getD i "")) &&
        decide (i + 1 < comps.length))).getLast? with
  | none => ""
  | some i =>
      let baseC := comps.take (i + 1)
      match findRepoRoot probe comps with
      | some k =>
          if pyStrLt (joinPath baseC) (joinPath (comps.take k)) then
            relpath baseC (comps.take k)
          else joinPath baseC
      | none => joinPath baseC

/-- The largest index of a marker component that is neither the first nor
the final path component: the "longest ancestor prefix" index of the
amended claim C7. -/
def amendedIdx (comps : List String) : Option Nat :=
  ((List.range comps.length).filter
    (fun i => (subfolderNames.contains (comps.getD i "")) &&
      decide (1 ≤ i) && decide (i + 1 < comps.length))).getLast?

/-- The amended key rule: as `claimGroupKey`, but a marker that is the
first path component does not match (the source regex needs at least one
character before the `/marker/` ancestor). -/
def amendedGroupKey (probe : List String → Bool) (comps : List String) : String :=
  match amendedIdx comps with
  | none => ""
  | some i =>
      let baseC := comps.take (i + 1)
      match findRepoRoot probe comps with
      | some k =>
          if pyStrLt (joinPath baseC) (joinPath (comps.take k)) then
            relpath baseC (comps.take k)
          else joinPath baseC
      | none => joinPath baseC

/-- Walk a relative component path down the directory tree (no filtering:
this locates a subdirectory whether or not the walk would visit it). -/
def findSubdir : FSTree → List String → Option FSTree
  | t, [] => some t
  | t, d :: rel =>
      match t with
      | .node _ dirs => match findSubdirIn dirs d with
        | some c => findSubdir c rel
        | none => none
where
  findSubdirIn : FSDirs → String → Option FSTree
    | .nil, _ => none
    | .cons n c r, d => if n = d then some c else findSubdirIn r d

/-- No duplicate names among a string list (used for tree wellformedness). -/
def namesDistinct : List String → Bool
  | [] => true
  | x :: xs => !xs.contains x && namesDistinct xs

mutual
/-- Wellformedness of a modelled directory: within every directory the
child names (files and subdirectories together) are pairwise distinct, as
on a real filesystem. -/
def treeWF : FSTree → Bool
  | .node files dirs => namesDistinct (files ++ dirNames dirs) && dirsWF dirs
def dirsWF : FSDirs → Bool
  | .nil => true
  | .cons _ t r => treeWF t && dirsWF r
end

/-- The root directory of a walked tree has the ignore marker among its
entries. -/
def hasIgnoreRoot : FSTree → Bool
  | .node files dirs => hasIgnoreMarker files dirs

/-! ## Concrete runs used by the per-claim theorems -/

/-- An environment whose version query answers normally, with the given
per-invocation outcomes. -/
def mkEnv (oc : Nat → LaunchOutcome) : Env :=
  ⟨some "/usr/bin/cobra", some ["Version", "4.1", "-", "19", "December", "2016"], oc,
    .ok ["sarif output"], fun _ => false, fun _ => true⟩

def allOkEnv : Env := mkEnv (fun _ => .ok [""])

def stdArgs : Args := ⟨none, [], "basic", none, none, none, false, false⟩

def onePath : List InputPath := [.file ["pkg", "f.c"]]

def badRulesetArgs : Args := ⟨none, [], "strict", none, none, none, false, false⟩

def launchFailEnv : Env := mkEnv (fun n => if n = 0 then .oserror else .ok [""])

def twoGroupPaths : List InputPath := [.file ["p1", "src", "a.c"], .file ["p2", "src", "b.c"]]

def sarifArgs : Args := ⟨none, [], "basic", none, none, some "o/out.sarif", false, false⟩

def dupTree : FSTree :=
  .node [] (.cons "src" (.node ["z.c"] (.cons "sub" (.node ["a.c"] .nil) .nil)) .nil)

def dupPaths : List InputPath := [.dir ["r"] dupTree, .dir ["r"] dupTree]

def inclArgs : Args := ⟨some ["inc"], [], "basic", none, none, none, false, false⟩

/-- A trace containing no file deletion. -/
def NoDel (tr : List Effect) : Prop := ∀ p, Effect.deleteFile p ∉ tr

/-! # Theorems -/

/-- C8: preprocessor extraction keeps a token pair for each bare `-D`,
`-I`, `-U`; rewrites `-isystem X` to the single token `-IX`; keeps
concatenated `-D...`/`-I...`/`-U...` tokens as-is; drops every other
token; and on the tokens of `g++ -DFOO -Iinc -isystem /usr/x -c x.cpp`
under ruleset `jpl` it yields exactly `["-DFOO", "-Iinc", "-I/usr/x"]`. -/
theorem c8_preprocessor_extraction :
    (∀ x rest, extract_options ("-D" :: x :: rest) =
      (extract_options rest).map (fun l => "-D" :: x :: l))
  ∧ (∀ x rest, extract_options ("-I" :: x :: rest) =
      (extract_options rest).map (fun l => "-I" :: x :: l))
  ∧ (∀ x rest, extract_options ("-U" :: x :: rest) =
      (extract_options rest).map (fun l => "-U" :: x :: l))
  ∧ (∀ x rest, extract_options ("-isystem" :: x :: rest) =
      (extract_options rest).map (fun l => ("-I" ++ x) :: l))
  ∧ (∀ t rest, (pyStartsWith t "-D" = true ∨ pyStartsWith t "-I" = true ∨
        pyStartsWith t "-U" = true) → t ∉ (["-D", "-I", "-U"] : List String) →
      extract_options (t :: rest) = (extract_options rest).map (fun l => t :: l))
  ∧ (∀ t rest, ¬ (pyStartsWith t "-D" = true ∨ pyStartsWith t "-I" = true ∨
        pyStartsWith t "-U" = true) → t ≠ "-isystem" →
      extract_options (t :: rest) = extract_options rest)
  ∧ preprocOptions "jpl" ["g++", "-DFOO", "-Iinc", "-isystem", "/usr/x", "-c", "x.cpp"] =
      some ["-DFOO", "-Iinc", "-I/usr/x"] := by
  refine ⟨fun x rest => rfl, fun x rest => rfl, fun x rest => rfl, fun x rest => rfl,
    ?_, ?_, by decide⟩
  · intro t rest h hmem
    have h1 : ¬ (t = "-D" ∨ t = "-I" ∨ t = "-U") := by
      intro hc
      exact hmem (by rcases hc with rfl | rfl | rfl <;> decide)
    have h2 : t ≠ "-isystem" := by
      rintro rfl
      rcases h with h | h | h <;> exact absurd h (by decide)
    rw [extract_options.eq_def]
    dsimp only
    rw [if_neg h1, if_neg h2, if_pos (by simpa using h)]
  · intro t rest h h2
    have h1 : ¬ (t = "-D" ∨ t = "-I" ∨ t = "-U") := by
      rintro (rfl | rfl | rfl) <;> exact h (by decide)
    rw [extract_options.eq_def]
    dsimp only
    rw [if_neg h1, if_neg h2, if_neg (by simpa using h)]

/-- C8 witness: the concatenated-form rule applied at `-DX`, with both
hypotheses discharged concretely. -/
theorem c8_preprocessor_extraction_witness :
    extract_options ["-DX", "g++"] = some ["-DX"] := by
  have h := c8_preprocessor_extraction.2.2.2.2.1 "-DX" ["g++"]
    (Or.inl (by decide)) (by decide)
  rw [h]; rfl

/-- C1 (code bug): a run over one file whose analyzer invocation produces
empty stdout — hence zero per-line pattern-count matches — still reports
one issue (the hardcoded placeholder appended by `invoke_cobra`), prints
`1 errors` on stderr rather than `No problems found`, and exits 1; the
claimed stdout scan does not exist in the code. -/
theorem c1_hardcoded_issue_run :
    mainRun allOkEnv stdArgs onePath =
      ⟨1, [.spawn ["/usr/bin/cobra", "-V"],
           .spawn ["/usr/bin/cobra", "-C++", "-comments", "-json", "-f", "basic", "/pkg/f.c"],
           .eprint (errorsMsg 1)], false⟩
  ∧ Effect.print noProblemsMsg ∉ (mainRun allOkEnv stdArgs onePath).trace
  ∧ countOf allOkEnv stdArgs onePath = 1 := by decide

/-- C3 counterexample: with the invalid ruleset `strict`, the run does
report the error and exit 1 — but the external analyzer IS invoked before
that failure: `get_cobra_version` launches `cobra -V` (main.py line 112)
before the ruleset validation of line 125, so the trace contains an
analyzer launch, contradicting "the external analyzer is never invoked
before that failure". -/
theorem c3_version_spawn_counterexample :
    mainRun allOkEnv badRulesetArgs onePath =
      ⟨1, [.spawn ["/usr/bin/cobra", "-V"], .eprint (invalidRulesetMsg "strict")], false⟩
  ∧ Effect.spawn ["/usr/bin/cobra", "-V"] ∈ (mainRun allOkEnv badRulesetArgs onePath).trace := by
  decide

/-- C4 (code bug): when the first of two group invocations cannot launch
its child process (`Popen` raises `OSError`), the exception is NOT caught
— the `except subprocess.CalledProcessError` clause never matches a
launch failure — so the run aborts: no failure message is printed, and the
second group (`/p2/src/b.c`) is never analyzed, contradicting the claim
that the failure is caught, reported, counted as zero and skipped over. -/
theorem c4_launch_failure_aborts :
    mainRun launchFailEnv stdArgs twoGroupPaths =
      ⟨1, [.spawn ["/usr/bin/cobra", "-V"],
           .spawn ["/usr/bin/cobra", "-C++", "-comments", "-json", "-f", "basic",
             "/p1/src/a.c"]], true⟩
  ∧ (∀ c ∈ spawnCmds (mainRun launchFailEnv stdArgs twoGroupPaths).trace, "/p2/src/b.c" ∉ c)
  ∧ (∀ code : Int,
      Effect.eprint (cobraFailMsg code) ∉ (mainRun launchFailEnv stdArgs twoGroupPaths).trace) := by
  refine ⟨by decide, by decide, ?_⟩
  intro code h
  have he : mainRun launchFailEnv stdArgs twoGroupPaths =
      ⟨1, [.spawn ["/usr/bin/cobra", "-V"],
           .spawn ["/usr/bin/cobra", "-C++", "-comments", "-json", "-f", "basic",
             "/p1/src/a.c"]], true⟩ := by decide
  rw [he] at h
  simp at h

/-- C5 counterexample: a run that successfully emits the requested SARIF
report (writes `o/out.sarif`) performs no deletion at all — in particular
the analyzer's intermediate results file `o/_Basic_.txt` is not deleted —
contradicting the claimed cleanup. -/
theorem c5_no_delete_counterexample :
    Effect.writeFile "o/out.sarif" ∈ (mainRun allOkEnv sarifArgs onePath).trace
  ∧ (mainRun allOkEnv sarifArgs onePath).aborted = false
  ∧ Effect.deleteFile "o/_Basic_.txt" ∉ (mainRun allOkEnv sarifArgs onePath).trace := by decide

/-- C6 counterexample: grouping the same directory input given twice
yields a group whose value is neither sorted (its walk lists
`/r/src/z.c` before `/r/src/sub/a.c`, which sorts earlier) nor
deduplicated (every file appears twice). -/
theorem c6_unsorted_dup_counterexample :
    get_file_groups (fun _ => false) dupPaths cExtensions [] =
      [("/r/src", ["/r/src/z.c", "/r/src/sub/a.c", "/r/src/z.c", "/r/src/sub/a.c"])]
  ∧ ¬ List.Pairwise (fun a b => pyStrLe a b = true)
      ["/r/src/z.c", "/r/src/sub/a.c", "/r/src/z.c", "/r/src/sub/a.c"]
  ∧ ¬ List.Nodup ["/r/src/z.c", "/r/src/sub/a.c", "/r/src/z.c", "/r/src/sub/a.c"] := by
  refine ⟨by decide, by decide, by decide⟩

/-- C7 counterexample: for the file `/src/f.c` (marker directory as the
first path component) the claimed rule picks the ancestor `/src`, but the
source regex `^(.+/src)/` needs at least one character before `/src`, so
the code computes the empty-string key instead. -/
theorem c7_leading_marker_counterexample :
    appendRoot (fun _ => false) ["src", "f.c"] = ""
  ∧ claimGroupKey (fun _ => false) ["src", "f.c"] = "/src"
  ∧ ("" : String) ≠ "/src" := by decide


/-! ## No-deletion invariant (claim C5) -/

theorem noDel_append {a b : List Effect} (ha : NoDel a) (hb : NoDel b) : NoDel (a ++ b) := by
  intro p h
  rcases List.mem_append.mp h with h | h
  · exact ha p h
  · exact hb p h

theorem noDel_invoke_error (oc : LaunchOutcome) (arguments : List String) (verbose : Bool)
    (report : Report) (acts : List Effect)
    (h : invoke_cobra oc arguments verbose report = .error acts) : NoDel acts := by
  cases oc <;> simp only [invoke_cobra] at h
  case ok lines => cases h
  case calledProcessError c => cases h
  case oserror =>
    cases h
    intro p hp
    simp only [List.mem_append] at hp
    rcases hp with hp | hp
    · split at hp <;> simp_all
    · simp_all

theorem noDel_invoke_ok (oc : LaunchOutcome) (arguments : List String) (verbose : Bool)
    (report : Report) (r : Report) (acts : List Effect)
    (h : invoke_cobra oc arguments verbose report = .ok (r, acts)) : NoDel acts := by
  cases oc <;> simp only [invoke_cobra, Except.ok.injEq, Prod.mk.injEq] at h
  case oserror => cases h
  case calledProcessError c =>
    obtain ⟨-, h⟩ := h
    subst h
    intro p hp
    simp only [List.mem_append] at hp
    rcases hp with hp | hp
    · split at hp <;> simp_all
    · simp_all
  case ok lines =>
    obtain ⟨-, h⟩ := h
    subst h
    intro p hp
    simp only [List.mem_append, List.mem_map] at hp
    rcases hp with (hp | hp) | hp
    · split at hp <;> simp_all
    · simp_all
    · obtain ⟨l, -, hl⟩ := hp
      cases hl

theorem noDel_invokeStep_error (env : Env) (verbose : Bool) (arguments : List String)
    {st st' : GroupSt} (h : invokeStep env verbose arguments st = .error st')
    (hst : NoDel st.trace) : NoDel st'.trace := by
  simp only [invokeStep] at h
  cases he : invoke_cobra (env.outcomes st.idx) arguments verbose st.report with
  | error acts =>
      rw [he] at h
      cases h
      exact noDel_append hst (noDel_invoke_error _ _ _ _ _ he)
  | ok pr =>
      rw [he] at h
      cases h

theorem noDel_invokeStep_ok (env : Env) (verbose : Bool) (arguments : List String)
    {st st' : GroupSt} (h : invokeStep env verbose arguments st = .ok st')
    (hst : NoDel st.trace) : NoDel st'.trace := by
  simp only [invokeStep] at h
  cases he : invoke_cobra (env.outcomes st.idx) arguments verbose st.report with
  | error acts =>
      rw [he] at h
      cases h
  | ok pr =>
      rw [he] at h
      cases h
      exact noDel_append hst (noDel_invoke_ok _ _ _ _ pr.1 pr.2 (by rw [he]))

theorem noDel_perFile (env : Env) (verbose : Bool)
    (omap : List (String × (String × List String))) (files : List String) {st : GroupSt}
    (hst : NoDel st.trace) :
    (∀ st', perFileInvokes env verbose omap files st = .error st' → NoDel st'.trace) ∧
    (∀ st', perFileInvokes env verbose omap files st = .ok st' → NoDel st'.trace) := by
  induction files generalizing st with
  | nil =>
      constructor <;> intro st' h <;> simp only [perFileInvokes] at h
      · cases h
      · cases h; exact hst
  | cons f fs ih =>
      constructor <;> intro st' h <;> simp only [perFileInvokes] at h
      · cases he : invokeStep env verbose
            (match mapGet? omap f with
              | some dopts => if dopts.2 ≠ [] then st.cmd ++ dopts.2 ++ [f] else st.cmd ++ [f]
              | none => st.cmd ++ [f]) st with
        | error st1 =>
            rw [he] at h
            cases h
            exact noDel_invokeStep_error env verbose _ he hst
        | ok st1 =>
            rw [he] at h
            exact (ih (noDel_invokeStep_ok env verbose _ he hst)).1 _ h
      · cases he : invokeStep env verbose
            (match mapGet? omap f with
              | some dopts => if dopts.2 ≠ [] then st.cmd ++ dopts.2 ++ [f] else st.cmd ++ [f]
              | none => st.cmd ++ [f]) st with
        | error st1 =>
            rw [he] at h
            cases h
        | ok st1 =>
            rw [he] at h
            exact (ih (noDel_invokeStep_ok env verbose _ he hst)).2 _ h

theorem noDel_processOneGroup (env : Env) (args : Args)
    (omap : List (String × (String × List String))) {st : GroupSt} (g : String × List String)
    (hst : NoDel st.trace) :
    (∀ st', processOneGroup env args omap st g = .error st' → NoDel st'.trace) ∧
    (∀ st', processOneGroup env args omap st g = .ok st' → NoDel st'.trace) := by
  simp only [processOneGroup]
  cases args.compile_cmds with
  | some es => exact noDel_perFile env args.verbose omap g.2 hst
  | none =>
      constructor <;> intro st' h
      · cases he : invokeStep env args.verbose
            (st.cmd ++ (match args.include_dirs with
              | some ds => ds
              | none => []).map (fun d => "-I" ++ d) ++ g.2)
            ⟨st.cmd ++ (match args.include_dirs with
              | some ds => ds
              | none => []).map (fun d => "-I" ++ d) ++ g.2,
              g.2.foldl reportSet st.report, st.trace, st.idx⟩ with
        | error st1 =>
            rw [he] at h
            cases h
            exact noDel_invokeStep_error env args.verbose _ he hst
        | ok st1 =>
            rw [he] at h
            cases h
      · cases he : invokeStep env args.verbose
            (st.cmd ++ (match args.include_dirs with
              | some ds => ds
              | none => []).map (fun d => "-I" ++ d) ++ g.2)
            ⟨st.cmd ++ (match args.include_dirs with
              | some ds => ds
              | none => []).map (fun d => "-I" ++ d) ++ g.2,
              g.2.foldl reportSet st.report, st.trace, st.idx⟩ with
        | error st1 =>
            rw [he] at h
            cases h
        | ok st1 =>
            rw [he] at h
            cases h
            exact noDel_invokeStep_ok env args.verbose _ he hst

theorem noDel_runGroups (env : Env) (args : Args)
    (omap : List (String × (String × List String))) (gs : List (String × List String))
    {st : GroupSt} (hst : NoDel st.trace) :
    (∀ st', runGroups env args omap gs st = .error st' → NoDel st'.trace) ∧
    (∀ st', runGroups env args omap gs st = .ok st' → NoDel st'.trace) := by
  induction gs generalizing st with
  | nil =>
      constructor <;> intro st' h <;> simp only [runGroups] at h
      · cases h
      · cases h; exact hst
  | cons g gs ih =>
      constructor <;> intro st' h <;> simp only [runGroups] at h
      · cases he : processOneGroup env args omap st g with
        | error st1 =>
            rw [he] at h
            cases h
            exact (noDel_processOneGroup env args omap g hst).1 _ he
        | ok st1 =>
            rw [he] at h
            exact (ih ((noDel_processOneGroup env args omap g hst).2 _ he)).1 _ h
      · cases he : processOneGroup env args omap st g with
        | error st1 =>
            rw [he] at h
            cases h
        | ok st1 =>
            rw [he] at h
            exact (ih ((noDel_processOneGroup env args omap g hst).2 _ he)).2 _ h

theorem noDel_xunit (env : Env) (xf : String) : NoDel (write_xunit_actions env xf) := by
  intro p hp
  simp only [write_xunit_actions, List.mem_append] at hp
  rcases hp with hp | hp
  · split at hp <;> simp_all
  · simp_all

theorem noDel_sarif (env : Env) (sf ruleset : String) :
    (∀ acts, write_sarif_run env sf ruleset = .error acts → NoDel acts) ∧
    (∀ acts, write_sarif_run env sf ruleset = .ok acts → NoDel acts) := by
  simp only [write_sarif_run]
  rcases rulesetToFilename ruleset with _ | (_ | fname)
  · constructor <;> intro acts h
    · cases h
      intro p hp
      simp at hp
    · cases h
  · constructor <;> intro acts h
    · cases h
    · cases h
      intro p hp
      simp at hp
  · cases env.convertOutcome <;> constructor <;> intro acts h <;> cases h <;>
      intro p hp <;> simp at hp

theorem noDel_main (env : Env) (args : Args) (paths : List InputPath) :
    NoDel (mainRun env args paths).trace := by
  simp only [mainRun]
  cases env.cobraBin with
  | none => intro p hp; simp at hp
  | some bin =>
    cases env.versionResult with
    | none => intro p hp; simp at hp
    | some toks =>
      dsimp only
      by_cases h6 : toks.length ≠ 6
      · rw [if_pos h6]
        intro p hp; simp at hp
      · rw [if_neg h6]
        by_cases hcv : args.cobra_version = true
        · rw [if_pos hcv]
          intro p hp; simp at hp
        · rw [if_neg hcv]
          by_cases hg : get_file_groups env.probe paths cExtensions args.exclude = []
          · rw [if_pos hg]
            intro p hp; simp at hp
          · rw [if_neg hg]
            by_cases hr : args.ruleset ∈ rulesets
            · rw [if_pos hr]
              have hwarn : NoDel (if args.compile_cmds.isSome &&
                  (match args.include_dirs with
                    | some ds => !ds.isEmpty
                    | none => false) then [Effect.print includeWarnMsg] else []) := by
                intro p hp
                split at hp <;> simp_all
              cases hbo : buildOptionsMap args.ruleset
                  (match args.compile_cmds with | some es => es | none => []) [] with
              | none =>
                  intro p hp
                  simp only [List.mem_append] at hp
                  rcases hp with hp | hp
                  · simp at hp
                  · exact hwarn p hp
              | some omap =>
                  have hnil : NoDel ([] : List Effect) := by intro p hp; simp at hp
                  have hcases : (∃ st, runGroups env args omap
                      (sortGroups (get_file_groups env.probe paths cExtensions args.exclude))
                      ⟨bin :: basicArgs ++ ["-f", args.ruleset] ++ associatedArgs args.ruleset,
                        [], [], 0⟩ = .error st) ∨ (∃ st, runGroups env args omap
                      (sortGroups (get_file_groups env.probe paths cExtensions args.exclude))
                      ⟨bin :: basicArgs ++ ["-f", args.ruleset] ++ associatedArgs args.ruleset,
                        [], [], 0⟩ = .ok st) := by
                    cases runGroups env args omap
                        (sortGroups (get_file_groups env.probe paths cExtensions args.exclude))
                        ⟨(bin :: basicArgs) ++ ["-f", args.ruleset] ++ associatedArgs args.ruleset,
                          [], [], 0⟩ with
                    | error st => exact Or.inl ⟨st, rfl⟩
                    | ok st => exact Or.inr ⟨st, rfl⟩
                  rcases hcases with ⟨st, hrg⟩ | ⟨st, hrg⟩
                  case _ =>
                      have hst := (noDel_runGroups env args omap _ hnil).1 _ hrg
                      dsimp only
                      rw [hrg]
                      intro p hp
                      simp only [List.mem_append] at hp
                      rcases hp with (hp | hp) | hp
                      · simp at hp
                      · exact hwarn p hp
                      · exact hst p hp
                  case _ =>
                      have hst := (noDel_runGroups env args omap _ hnil).2 _ hrg
                      dsimp only
                      rw [hrg]
                      have hsum : NoDel (if errorCount st.report = 0 then
                          [Effect.print noProblemsMsg]
                          else [Effect.eprint (errorsMsg (errorCount st.report))]) := by
                        intro p hp
                        split at hp <;> simp_all
                      have hx : NoDel (match args.xunit_file with
                          | some xf => write_xunit_actions env xf
                          | none => []) := by
                        cases args.xunit_file with
                        | none => exact hnil
                        | some xf => exact noDel_xunit env xf
                      cases hsa : (match args.sarif_file with
                          | some sf => write_sarif_run env sf args.ruleset
                          | none => .ok []) with
                      | error sTr =>
                          have hs : NoDel sTr := by
                            cases hsf : args.sarif_file with
                            | none => rw [hsf] at hsa; cases hsa
                            | some sf =>
                                rw [hsf] at hsa
                                exact (noDel_sarif env sf args.ruleset).1 _ hsa
                          exact noDel_append (noDel_append (noDel_append (noDel_append
                            (noDel_append (by intro p hp; simp at hp) hwarn) hst) hsum) hx) hs
                      | ok sTr =>
                          have hs : NoDel sTr := by
                            cases hsf : args.sarif_file with
                            | none => rw [hsf] at hsa; cases hsa; exact hnil
                            | some sf =>
                                rw [hsf] at hsa
                                exact (noDel_sarif env sf args.ruleset).2 _ hsa
                          exact noDel_append (noDel_append (noDel_append (noDel_append
                            (noDel_append (by intro p hp; simp at hp) hwarn) hst) hsum) hx) hs
            · rw [if_neg hr]
              intro p hp; simp at hp

/-- C5 (amended): after emission of any requested report the analyzer's
intermediate results file is NOT deleted — the tool performs no file
deletion at all on any run, so that file does persist between runs. -/
theorem c5_no_deletion_ever (env : Env) (args : Args) (paths : List InputPath) :
    ∀ p, Effect.deleteFile p ∉ (mainRun env args paths).trace :=
  noDel_main env args paths

/-- C3 (amended): an invalid ruleset yields the error message on stderr,
exit code 1, and no analysis invocation of the analyzer — but the analyzer
binary is first executed once with `-V` (by `get_cobra_version`, main.py
line 112) before the validation, so that version query is the run's only
child-process launch. -/
theorem c3_invalid_ruleset_amended (env : Env) (args : Args) (paths : List InputPath)
    (bin : String) (hbin : env.cobraBin = some bin)
    (toks : List String) (hver : env.versionResult = some toks) (h6 : toks.length = 6)
    (hncv : args.cobra_version = false)
    (hg : get_file_groups env.probe paths cExtensions args.exclude ≠ [])
    (hr : args.ruleset ∉ rulesets) :
    mainRun env args paths =
      ⟨1, [Effect.spawn [bin, "-V"], Effect.eprint (invalidRulesetMsg args.ruleset)], false⟩ := by
  simp only [mainRun, hbin, hver]
  rw [if_neg (by simp [h6]), if_neg (by simp [hncv]), if_neg hg, if_neg hr]
  rfl

/-- C3 witness: the amended statement at a concrete run with ruleset
`strict`. -/
theorem c3_invalid_ruleset_amended_witness :
    mainRun allOkEnv badRulesetArgs onePath =
      ⟨1, [Effect.spawn ["/usr/bin/cobra", "-V"], Effect.eprint (invalidRulesetMsg "strict")],
        false⟩ :=
  c3_invalid_ruleset_amended allOkEnv badRulesetArgs onePath "/usr/bin/cobra" rfl
    ["Version", "4.1", "-", "19", "December", "2016"] rfl (by decide) rfl (by decide) (by decide)

/-! ## Grouping invariants (claim C6) -/

theorem foldl_preserve {α β : Type} {P : β → Prop} {step : β → α → β}
    (hstep : ∀ b a, P b → P (step b a)) :
    ∀ (l : List α) (b : β), P b → P (l.foldl step b) := by
  intro l
  induction l with
  | nil => intro b hb; exact hb
  | cons a l ih => intro b hb; exact ih _ (hstep b a hb)

theorem insertGroup_values_ne_nil {groups : List (String × List String)} {key path : String}
    (h : ∀ kv ∈ groups, kv.2 ≠ []) : ∀ kv ∈ insertGroup groups key path, kv.2 ≠ [] := by
  induction groups with
  | nil =>
      intro kv hkv
      simp only [insertGroup, List.mem_singleton] at hkv
      subst hkv
      simp
  | cons g gs ih =>
      intro kv hkv
      obtain ⟨k, l⟩ := g
      simp only [insertGroup] at hkv
      split at hkv
      · rcases List.mem_cons.mp hkv with rfl | hkv
        · simp
        · exact h kv (List.mem_cons_of_mem _ hkv)
      · rcases List.mem_cons.mp hkv with rfl | hkv
        · exact h (k, l) (List.mem_cons_self _ _)
        · exact ih (fun kv hkv => h kv (List.mem_cons_of_mem _ hkv)) kv hkv

/-- C6 (amended): grouping is deterministic and idempotent — it is a pure
function of the input paths, extensions and excludes, so re-running it on
the same file set yields the same mapping — and each group's value is a
nonempty list of file paths in discovery order (not, in general, sorted or
deduplicated: see the counterexample). -/
theorem c6_grouping_deterministic_nonempty (probe : List String → Bool)
    (paths : List InputPath) (extensions excludes : List String) :
    get_file_groups probe paths extensions excludes =
      get_file_groups probe paths extensions excludes
    ∧ ∀ kv ∈ get_file_groups probe paths extensions excludes, kv.2 ≠ [] := by
  refine ⟨rfl, ?_⟩
  unfold get_file_groups
  have hinit : ∀ kv ∈ ([] : List (String × List String)), kv.2 ≠ [] := by
    intro kv hkv; simp at hkv
  refine @foldl_preserve _ _ (fun groups : List (String × List String) => ∀ kv ∈ groups, kv.2 ≠ []) _ ?_ paths [] hinit
  intro groups p hg
  cases p with
  | dir comps t =>
      refine @foldl_preserve _ _ (fun groups : List (String × List String) => ∀ kv ∈ groups, kv.2 ≠ []) _ ?_ _ groups hg
      intro g fp hgg
      dsimp only
      split
      · exact hgg
      · exact insertGroup_values_ne_nil hgg
  | file comps =>
      dsimp only
      split
      · exact hg
      · exact insertGroup_values_ne_nil hg

/-! ## Spawn-command characterization of the group loop (claim C10) -/

theorem spawnCmds_append (a b : List Effect) :
    spawnCmds (a ++ b) = spawnCmds a ++ spawnCmds b := by
  simp [spawnCmds, List.filterMap_append]

theorem spawnCmds_ifprint (verbose : Bool) (s : String) :
    spawnCmds ((if verbose then [Effect.print s] else []) : List Effect) = [] := by
  split <;> simp [spawnCmds]

theorem spawnCmds_map_print (lines : List String) :
    spawnCmds (lines.map Effect.print) = [] := by
  induction lines with
  | nil => simp [spawnCmds]
  | cons l ls ih => simp only [List.map_cons, spawnCmds, List.filterMap_cons] at ih ⊢; exact ih

/-- Under all-successful launches and no compile-database, the group loop
never aborts and its spawned commands are exactly: for each processed
group (0-based index `j`), the initial command extended by, for each of
the first `j+1` groups in order, the `-I` include flags followed by that
group's files — i.e. the shared `cmd` list as mutated so far. -/
theorem runGroups_spawns_nocc (env : Env) (args : Args)
    (omap : List (String × (String × List String))) (dirs : List String)
    (hcc : args.compile_cmds = none) (hdirs : args.include_dirs = some dirs)
    (hok : ∀ n, ∃ lines, env.outcomes n = .ok lines) :
    ∀ (gs : List (String × List String)) (st : GroupSt),
    ∃ st', runGroups env args omap gs st = .ok st' ∧
      spawnCmds st'.trace = spawnCmds st.trace ++
        (List.range gs.length).map (fun j =>
          st.cmd ++ ((gs.take (j + 1)).map
            (fun g => dirs.map (fun d => "-I" ++ d) ++ g.2)).flatten) := by
  intro gs
  induction gs with
  | nil =>
      intro st
      exact ⟨st, rfl, by simp⟩
  | cons g gs ih =>
      intro st
      obtain ⟨lines, hl⟩ := hok st.idx
      have hstep : processOneGroup env args omap st g =
          .ok ⟨st.cmd ++ dirs.map (fun d => "-I" ++ d) ++ g.2,
            reportAppend (g.2.foldl reportSet st.report) exampleFailure.filename exampleFailure,
            st.trace ++ ((if args.verbose then
                [Effect.print (joinSpace (st.cmd ++ dirs.map (fun d => "-I" ++ d) ++ g.2))]
              else []) ++
              [Effect.spawn (st.cmd ++ dirs.map (fun d => "-I" ++ d) ++ g.2)] ++
              (lines.filter (fun l => l ≠ "")).map Effect.print),
            st.idx + 1⟩ := by
        simp only [processOneGroup, hcc, hdirs, invokeStep, invoke_cobra, hl]
      obtain ⟨st', hrun, hsp⟩ := ih ⟨st.cmd ++ dirs.map (fun d => "-I" ++ d) ++ g.2,
        reportAppend (g.2.foldl reportSet st.report) exampleFailure.filename exampleFailure,
        st.trace ++ ((if args.verbose then
            [Effect.print (joinSpace (st.cmd ++ dirs.map (fun d => "-I" ++ d) ++ g.2))]
          else []) ++
          [Effect.spawn (st.cmd ++ dirs.map (fun d => "-I" ++ d) ++ g.2)] ++
          (lines.filter (fun l => l ≠ "")).map Effect.print),
        st.idx + 1⟩
      refine ⟨st', ?_, ?_⟩
      · simp only [runGroups, hstep]
        exact hrun
      · rw [hsp]
        simp only [spawnCmds_append]
        rw [spawnCmds_ifprint, spawnCmds_map_print]
        simp only [spawnCmds, List.filterMap_cons, List.filterMap_nil]
        simp only [List.length_cons]
        rw [List.range_succ_eq_map]
        simp only [List.map_cons, List.map_map, List.take_cons, List.take_zero]
        simp [List.append_assoc, Function.comp]

theorem sum_map_const {α : Type} (l : List α) (f : α → Nat) (v : Nat)
    (h : ∀ x ∈ l, f x = v) : (l.map f).sum = l.length * v := by
  induction l with
  | nil => simp
  | cons x xs ih =>
      simp only [List.map_cons, List.sum_cons, List.length_cons,
        h x (List.mem_cons_self _ _), ih (fun y hy => h y (List.mem_cons_of_mem _ hy))]
      ring

/-- C10: without a compile-database and with include directories given,
the per-group command is built by extending the one shared `cmd` list, so
the `j`-th (0-based) analyzer invocation carries `j+1` copies of each
`-I<include_dir>` flag; only the first invocation carries each flag
exactly once. -/
theorem c10_shared_cmd_include_flags (env : Env) (args : Args)
    (omap : List (String × (String × List String))) (gs : List (String × List String))
    (cmd0 : List String) (rep0 : Report) (idx0 : Nat) (d : String) (dirs : List String)
    (hcc : args.compile_cmds = none) (hdirs : args.include_dirs = some dirs)
    (hok : ∀ n, ∃ lines, env.outcomes n = .ok lines)
    (hc0 : ("-I" ++ d) ∉ cmd0) (hgs : ∀ g ∈ gs, ("-I" ++ d) ∉ g.2) :
    ∃ st', runGroups env args omap gs ⟨cmd0, rep0, [], idx0⟩ = .ok st' ∧
      ∀ j, j < gs.length →
        (spawnCmds st'.trace).get? j = some (cmd0 ++ ((gs.take (j + 1)).map
            (fun g => dirs.map (fun d => "-I" ++ d) ++ g.2)).flatten) ∧
        ((spawnCmds st'.trace).get? j).map (List.count ("-I" ++ d)) =
          some ((j + 1) * List.count d dirs) := by
  obtain ⟨st', hrun, hsp⟩ := runGroups_spawns_nocc env args omap dirs hcc hdirs hok gs
    ⟨cmd0, rep0, [], idx0⟩
  refine ⟨st', hrun, ?_⟩
  intro j hj
  have hget : (spawnCmds st'.trace).get? j = some (cmd0 ++ ((gs.take (j + 1)).map
      (fun g => dirs.map (fun d => "-I" ++ d) ++ g.2)).flatten) := by
    rw [hsp]
    simp only [spawnCmds, List.filterMap_nil, List.nil_append]
    rw [List.get?_map, List.get?_range hj]
    rfl
  refine ⟨hget, ?_⟩
  rw [hget]
  simp only [Option.map_some']
  congr 1
  have hinj : Function.Injective (fun s : String => "-I" ++ s) := by
    intro a b hab
    have hd := congrArg String.data hab
    simp only [String.data_append] at hd
    exact String.ext (List.append_cancel_left hd)
  rw [List.count_append, List.count_eq_zero.mpr hc0, List.count_flatten, List.map_map]
  have hall : ∀ g ∈ gs.take (j + 1),
      (List.count ("-I" ++ d) ∘ fun g => dirs.map (fun d => "-I" ++ d) ++ g.2) g =
        List.count d dirs := by
    intro g hg
    have hnot : ("-I" ++ d) ∉ g.2 := hgs g (List.take_subset _ _ hg)
    simp only [Function.comp]
    rw [List.count_append, List.count_eq_zero.mpr hnot,
      List.count_map_of_injective dirs (fun s : String => "-I" ++ s) hinj d]
    omega
  rw [sum_map_const _ _ _ hall, List.length_take]
  have : min (j + 1) gs.length = j + 1 := Nat.min_eq_left hj
  rw [this]
  omega

/-- C10 witness: two concrete single-file groups with one include
directory; the first invocation carries `-Iinc` once, the second twice. -/
theorem c10_shared_cmd_include_flags_witness :
    ∃ st', runGroups allOkEnv inclArgs []
        [("a", ["/x/f.c"]), ("b", ["/y/g.c"])] ⟨["cobra"], [], [], 0⟩ = .ok st' ∧
      ∀ j, j < 2 →
        (spawnCmds st'.trace).get? j = some (["cobra"] ++
          (([("a", ["/x/f.c"]), ("b", ["/y/g.c"])].take (j + 1)).map
            (fun g => ["inc"].map (fun d => "-I" ++ d) ++ g.2)).flatten) ∧
        ((spawnCmds st'.trace).get? j).map (List.count ("-I" ++ "inc")) =
          some ((j + 1) * List.count "inc" ["inc"]) := by
  have h := c10_shared_cmd_include_flags allOkEnv inclArgs []
    [("a", ["/x/f.c"]), ("b", ["/y/g.c"])] ["cobra"] [] 0 "inc" ["inc"]
    rfl rfl (fun n => ⟨[""], rfl⟩) (by decide) (by decide)
  simpa using h

/-! ## Issue-count lemmas (claim C2) -/

theorem isOk_exists {o : LaunchOutcome} (h : o.isOk = true) : ∃ l, o = .ok l := by
  cases o with
  | ok l => exact ⟨l, rfl⟩
  | oserror => simp [LaunchOutcome.isOk] at h
  | calledProcessError c => simp [LaunchOutcome.isOk] at h

theorem errorCount_reportAppend (r : Report) (k : String) (f : Failure) :
    errorCount (reportAppend r k f) = errorCount r + 1 := by
  induction r with
  | nil => simp [reportAppend, errorCount]
  | cons kv rest ih =>
      obtain ⟨k', l⟩ := kv
      simp only [reportAppend]
      split
      · simp [errorCount]
        omega
      · simp only [errorCount, List.map_cons, List.sum_cons] at ih ⊢
        omega

theorem invokeStep_ok_count (env : Env) (verbose : Bool) (arguments : List String)
    (st : GroupSt) (lines : List String) (hl : env.outcomes st.idx = .ok lines) :
    ∃ st', invokeStep env verbose arguments st = .ok st' ∧
      errorCount st'.report = errorCount st.report + 1 ∧ st'.idx = st.idx + 1 := by
  refine ⟨⟨st.cmd, reportAppend st.report exampleFailure.filename exampleFailure,
    st.trace ++ ((if verbose then [Effect.print (joinSpace arguments)] else []) ++
      [Effect.spawn arguments] ++ (lines.filter (fun l => l ≠ "")).map Effect.print),
    st.idx + 1⟩, ?_, ?_, rfl⟩
  · simp only [invokeStep, invoke_cobra, hl]
  · exact errorCount_reportAppend st.report _ _

theorem perFileInvokes_ok_count (env : Env) (verbose : Bool)
    (omap : List (String × (String × List String)))
    (houtok : ∀ n, (env.outcomes n).isOk = true) :
    ∀ (files : List String) (st : GroupSt),
    ∃ st', perFileInvokes env verbose omap files st = .ok st' ∧
      errorCount st'.report = errorCount st.report + files.length := by
  intro files
  induction files with
  | nil => intro st; exact ⟨st, rfl, by simp⟩
  | cons f fs ih =>
      intro st
      obtain ⟨lines, hl⟩ := isOk_exists (houtok st.idx)
      obtain ⟨st1, hst1, hc1, -⟩ := invokeStep_ok_count env verbose
        (match mapGet? omap f with
          | some dopts => if dopts.2 ≠ [] then st.cmd ++ dopts.2 ++ [f] else st.cmd ++ [f]
          | none => st.cmd ++ [f]) st lines hl
      obtain ⟨st', hrun, hc⟩ := ih st1
      refine ⟨st', ?_, ?_⟩
      · simp only [perFileInvokes, hst1]
        exact hrun
      · rw [hc, hc1]
        simp [List.length_cons]
        omega

theorem processOneGroup_ok_countpos (env : Env) (args : Args)
    (omap : List (String × (String × List String)))
    (houtok : ∀ n, (env.outcomes n).isOk = true) (st : GroupSt) (g : String × List String)
    (hne : g.2 ≠ []) :
    ∃ st', processOneGroup env args omap st g = .ok st' ∧ 1 ≤ errorCount st'.report := by
  simp only [processOneGroup]
  cases hcc : args.compile_cmds with
  | some es =>
      obtain ⟨st', hrun, hc⟩ := perFileInvokes_ok_count env args.verbose omap houtok g.2
        ⟨st.cmd, g.2.foldl reportSet st.report, st.trace, st.idx⟩
      refine ⟨st', hrun, ?_⟩
      rw [hc]
      have : g.2.length ≠ 0 := by
        intro h0
        exact hne (List.length_eq_zero.mp h0)
      omega
  | none =>
      obtain ⟨lines, hl⟩ := isOk_exists (houtok st.idx)
      obtain ⟨st', hrun, hc, -⟩ := invokeStep_ok_count env args.verbose
        (st.cmd ++ (match args.include_dirs with
          | some ds => ds
          | none => []).map (fun d => "-I" ++ d) ++ g.2)
        ⟨st.cmd ++ (match args.include_dirs with
          | some ds => ds
          | none => []).map (fun d => "-I" ++ d) ++ g.2,
          g.2.foldl reportSet st.report, st.trace, st.idx⟩ lines hl
      refine ⟨st', ?_, ?_⟩
      · rw [hrun]
      · omega

theorem processOneGroup_ok (env : Env) (args : Args)
    (omap : List (String × (String × List String)))
    (houtok : ∀ n, (env.outcomes n).isOk = true) (st : GroupSt) (g : String × List String) :
    ∃ st', processOneGroup env args omap st g = .ok st' := by
  simp only [processOneGroup]
  cases args.compile_cmds with
  | some es =>
      obtain ⟨st', hrun, -⟩ := perFileInvokes_ok_count env args.verbose omap houtok g.2
        ⟨st.cmd, g.2.foldl reportSet st.report, st.trace, st.idx⟩
      exact ⟨st', hrun⟩
  | none =>
      obtain ⟨lines, hl⟩ := isOk_exists (houtok st.idx)
      obtain ⟨st', hrun, -, -⟩ := invokeStep_ok_count env args.verbose
        (st.cmd ++ (match args.include_dirs with
          | some ds => ds
          | none => []).map (fun d => "-I" ++ d) ++ g.2)
        ⟨st.cmd ++ (match args.include_dirs with
          | some ds => ds
          | none => []).map (fun d => "-I" ++ d) ++ g.2,
          g.2.foldl reportSet st.report, st.trace, st.idx⟩ lines hl
      exact ⟨st', by rw [hrun]⟩

theorem runGroups_ok_countpos (env : Env) (args : Args)
    (omap : List (String × (String × List String)))
    (houtok : ∀ n, (env.outcomes n).isOk = true) :
    ∀ (gs : List (String × List String)) (st : GroupSt), gs ≠ [] →
    (∀ g ∈ gs, g.2 ≠ []) →
    ∃ st', runGroups env args omap gs st = .ok st' ∧ 1 ≤ errorCount st'.report := by
  intro gs
  induction gs with
  | nil => intro st h; exact absurd rfl h
  | cons g gs ih =>
      intro st _ hne
      cases gs with
      | nil =>
          obtain ⟨st', hrun, hpos⟩ := processOneGroup_ok_countpos env args omap houtok st g
            (hne g (List.mem_cons_self _ _))
          refine ⟨st', ?_, hpos⟩
          simp only [runGroups, hrun]
      | cons g2 gs2 =>
          obtain ⟨st1, hst1⟩ := processOneGroup_ok env args omap houtok st g
          obtain ⟨st', hrun, hpos⟩ := ih st1 (by simp)
            (fun g hg => hne g (List.mem_cons_of_mem _ hg))
          refine ⟨st', ?_, hpos⟩
          simp only [runGroups, hst1]
          exact hrun

theorem groups_values_ne_nil (probe : List String → Bool) (paths : List InputPath)
    (extensions excludes : List String) :
    ∀ kv ∈ get_file_groups probe paths extensions excludes, kv.2 ≠ [] := by
  unfold get_file_groups
  have hinit : ∀ kv ∈ ([] : List (String × List String)), kv.2 ≠ [] := by
    intro kv hkv; simp at hkv
  refine @foldl_preserve _ _
    (fun groups : List (String × List String) => ∀ kv ∈ groups, kv.2 ≠ []) _ ?_ paths [] hinit
  intro groups p hg
  cases p with
  | dir comps t =>
      refine @foldl_preserve _ _
        (fun groups : List (String × List String) => ∀ kv ∈ groups, kv.2 ≠ []) _ ?_ _ groups hg
      intro g fp hgg
      dsimp only
      split
      · exact hgg
      · exact insertGroup_values_ne_nil hgg
  | file comps =>
      dsimp only
      split
      · exact hg
      · exact insertGroup_values_ne_nil hg

theorem sortGroups_perm (gs : List (String × List String)) : List.Perm (sortGroups gs) gs :=
  List.perm_insertionSort _ gs

theorem sortGroups_ne_nil {gs : List (String × List String)} (h : gs ≠ []) :
    sortGroups gs ≠ [] := by
  intro h0
  have := (sortGroups_perm gs).length_eq
  rw [h0] at this
  exact h (List.length_eq_zero.mp this.symm)

theorem sarif_run_ok (env : Env) (sf r : String) (hr : r ∈ rulesets)
    (hconv : env.convertOutcome.isOk = true) :
    ∃ acts, write_sarif_run env sf r = .ok acts := by
  obtain ⟨l, hcv⟩ := isOk_exists hconv
  fin_cases hr <;> simp [write_sarif_run, rulesetToFilename, hcv]

/-- C2: the exit code is 0 exactly when no issues were counted (with the
executable found, files found and the ruleset valid), and 1 when issues
were found, no files were found, the executable is missing, or the ruleset
is invalid; a SARIF report requested for a ruleset without an intermediate
file (cwe/misra2012) also ends with exit 1 (on such runs the issue count
is necessarily positive, and `main` discards `write_sarif_file`'s own
return value). -/
theorem c2_exit_code_contract (env : Env) (args : Args) (paths : List InputPath)
    (hs : envSane env) (hncv : args.cobra_version = false) (hopts : optsOk args) :
    ((mainRun env args paths).exit = 0 ↔
      (env.cobraBin.isSome = true ∧ groupsOf env args paths ≠ [] ∧
        args.ruleset ∈ rulesets ∧ countOf env args paths = 0))
  ∧ (env.cobraBin = none → (mainRun env args paths).exit = 1)
  ∧ (env.cobraBin.isSome = true → groupsOf env args paths = [] →
      (mainRun env args paths).exit = 1)
  ∧ (env.cobraBin.isSome = true → groupsOf env args paths ≠ [] → args.ruleset ∉ rulesets →
      (mainRun env args paths).exit = 1)
  ∧ (env.cobraBin.isSome = true → groupsOf env args paths ≠ [] → args.ruleset ∈ rulesets →
      1 ≤ countOf env args paths → (mainRun env args paths).exit = 1)
  ∧ (env.cobraBin.isSome = true → groupsOf env args paths ≠ [] → args.ruleset ∈ rulesets →
      args.sarif_file.isSome = true → sarifUnsupported args.ruleset →
      (mainRun env args paths).exit = 1) := by
  obtain ⟨⟨toks, hver, h6⟩, houtok, hconv⟩ := hs
  cases hbin : env.cobraBin with
  | none =>
      have hexit : (mainRun env args paths).exit = 1 := by
        simp only [mainRun, hbin]
      refine ⟨?_, fun _ => hexit, ?_, ?_, ?_, ?_⟩
      · constructor
        · intro h0
          rw [hexit] at h0
          omega
        · rintro ⟨hsome, -⟩
          simp at hsome
      all_goals
        intro hsome
        simp at hsome
  | some bin =>
      by_cases hg : get_file_groups env.probe paths cExtensions args.exclude = []
      · have hexit : (mainRun env args paths).exit = 1 := by
          simp only [mainRun, hbin, hver]
          rw [if_neg (by simp [h6]), if_neg (by simp [hncv]), if_pos hg]
        refine ⟨?_, fun hnone => hexit, fun _ _ => hexit, ?_, ?_, ?_⟩
        · constructor
          · intro h0
            rw [hexit] at h0
            omega
          · rintro ⟨-, hne, -⟩
            exact absurd hg hne
        all_goals
          intro _ hne
          exact absurd hg hne
      · by_cases hr : args.ruleset ∈ rulesets
        · obtain ⟨omap, hbo⟩ := Option.isSome_iff_exists.mp hopts
          have hvals : ∀ g ∈ sortGroups
              (get_file_groups env.probe paths cExtensions args.exclude), g.2 ≠ [] :=
            fun g hg2 => groups_values_ne_nil env.probe paths cExtensions args.exclude g
              ((sortGroups_perm _).subset hg2)
          obtain ⟨st, hrg, hpos⟩ := runGroups_ok_countpos env args omap houtok
            (sortGroups (get_file_groups env.probe paths cExtensions args.exclude))
            ⟨bin :: (basicArgs ++ ["-f", args.ruleset] ++ associatedArgs args.ruleset),
              [], [], 0⟩
            (sortGroups_ne_nil hg) hvals
          have hmain : (mainRun env args paths).exit =
              if errorCount st.report = 0 then 0 else 1 := by
            simp only [mainRun, hbin, hver]
            rw [if_neg (by simp [h6]), if_neg (by simp [hncv]), if_neg hg, if_pos hr]
            dsimp only [List.cons_append]
            rw [hbo]
            dsimp only
            rw [hrg]
            dsimp only
            cases hsf : args.sarif_file with
            | none => rfl
            | some sf =>
                obtain ⟨acts, hsrun⟩ := sarif_run_ok env sf args.ruleset hr hconv
                dsimp only
                rw [hsrun]
          have hcount : countOf env args paths = errorCount st.report := by
            unfold countOf groupsOf
            rw [hbin, hbo]
            dsimp only [Option.getD, List.cons_append]
            rw [hrg]
          refine ⟨?_, ?_, ?_, ?_, ?_, ?_⟩
          · constructor
            · intro h0
              rw [hmain, if_neg (by omega)] at h0
              omega
            · rintro ⟨-, -, -, hc0⟩
              rw [hcount] at hc0
              omega
          · intro hnone
            cases hnone
          · intro _ hge
            exact absurd hge hg
          · intro _ _ hnr
            exact absurd hr hnr
          · intro _ _ _ _
            rw [hmain, if_neg (by omega)]
          · intro _ _ _ _ _
            rw [hmain, if_neg (by omega)]
        · have hexit : (mainRun env args paths).exit = 1 := by
            simp only [mainRun, hbin, hver]
            rw [if_neg (by simp [h6]), if_neg (by simp [hncv]), if_neg hg, if_neg hr]
          refine ⟨?_, fun hnone => hexit, fun _ hge => absurd hge hg, fun _ _ _ => hexit,
            ?_, ?_⟩
          · constructor
            · intro h0
              rw [hexit] at h0
              omega
            · rintro ⟨-, -, hin, -⟩
              exact absurd hin hr
          all_goals
            intro _ _ hin
            exact absurd hin hr

/-- C2 witness: the contract applied to a concrete sane run (one file,
ruleset `basic`); its issue count is positive, so the exit code is 1. -/
theorem c2_exit_code_contract_witness :
    envSane allOkEnv ∧ optsOk stdArgs ∧ (mainRun allOkEnv stdArgs onePath).exit = 1 := by
  have hs : envSane allOkEnv :=
    ⟨⟨["Version", "4.1", "-", "19", "December", "2016"], rfl, by decide⟩, fun n => rfl, rfl⟩
  have ho : optsOk stdArgs := by unfold optsOk; decide
  refine ⟨hs, ho, ?_⟩
  have h := c2_exit_code_contract allOkEnv stdArgs onePath hs rfl ho
  exact h.2.2.2.2.1 rfl (by decide) (by decide) (by decide)

/-! ## Path-string order lemmas (claim C7) -/

theorem charListLt_append (l m : List Char) (hm : m ≠ []) :
    charListLt l (l ++ m) = true := by
  induction l with
  | nil =>
      cases m with
      | nil => exact absurd rfl hm
      | cons x xs => rfl
  | cons a l ih =>
      simp [charListLt, ih]

theorem not_charListLt_append (l m : List Char) : charListLt (l ++ m) l = false := by
  induction l with
  | nil =>
      cases m with
      | nil => rfl
      | cons x xs => rfl
  | cons a l ih =>
      simp [charListLt, ih]

theorem joinPath_cons (c : String) (rest : List String) (h : rest ≠ []) :
    joinPath (c :: rest) = "/" ++ c ++ joinPath rest := by
  cases rest with
  | nil => exact absurd rfl h
  | cons d r => rfl

theorem joinPath_append (l1 l2 : List String) (h1 : l1 ≠ []) (h2 : l2 ≠ []) :
    joinPath (l1 ++ l2) = joinPath l1 ++ joinPath l2 := by
  induction l1 with
  | nil => exact absurd rfl h1
  | cons c l1 ih =>
      cases l1 with
      | nil =>
          rw [List.singleton_append, joinPath_cons c l2 h2]
          rfl
      | cons d r =>
          rw [List.cons_append, joinPath_cons c ((d :: r) ++ l2) (by simp),
            joinPath_cons c (d :: r) (by simp), ih (by simp)]
          simp [String.append_assoc]

theorem length_joinPath_ge_two (l : List String) (hl : l ≠ [])
    (hwf : ∀ c ∈ l, c ≠ "") : 2 ≤ (joinPath l).length := by
  cases l with
  | nil => exact absurd rfl hl
  | cons c rest =>
      have hc : c ≠ "" := hwf c (List.mem_cons_self _ _)
      have hc1 : 1 ≤ c.length := by
        cases hlen : c.length with
        | zero => exact absurd (String.ext (List.length_eq_zero.mp hlen)) hc
        | succ n => omega
      cases rest with
      | nil =>
          show 2 ≤ ("/" ++ c).length
          rw [String.length_append]
          have hb : ("/" : String).length = 1 := rfl
          omega
      | cons d r =>
          rw [joinPath_cons c (d :: r) (by simp), String.length_append, String.length_append]
          have hb : ("/" : String).length = 1 := rfl
          omega

theorem joinPath_take_lt (comps : List String) (hwf : ∀ c ∈ comps, c ≠ "")
    (a b : Nat) (hab : a < b) (hb : b ≤ comps.length) :
    pyStrLt (joinPath (comps.take a)) (joinPath (comps.take b)) = true := by
  have hsplit : comps.take b = comps.take a ++ (comps.drop a).take (b - a) := by
    rw [← List.take_add]
    congr 1
    omega
  have hmidne : (comps.drop a).take (b - a) ≠ [] := by
    intro h0
    have hlen := congrArg List.length h0
    rw [List.length_take, List.length_drop] at hlen
    simp at hlen
    omega
  have hmidwf : ∀ c ∈ (comps.drop a).take (b - a), c ≠ "" := by
    intro c hc
    exact hwf c (List.mem_of_mem_drop (List.mem_of_mem_take hc))
  by_cases hta : comps.take a = []
  · rw [hsplit, hta, List.nil_append]
    show charListLt (joinPath []).toList (joinPath ((comps.drop a).take (b - a))).toList = true
    cases hmid : (comps.drop a).take (b - a) with
    | nil => exact absurd hmid hmidne
    | cons c r =>
        have hcne : c ≠ "" := hmidwf c (by rw [hmid]; exact List.mem_cons_self _ _)
        have hcchars : c.toList ≠ [] := by
          intro h0
          exact hcne (String.ext (by simpa using h0))
        cases r with
        | nil =>
            show charListLt ['/'] ('/' :: c.toList) = true
            cases hcl : c.toList with
            | nil => exact absurd hcl hcchars
            | cons x xs => simp [charListLt]
        | cons d r2 =>
            rw [joinPath_cons c (d :: r2) (by simp)]
            show charListLt ['/'] (('/' :: c.toList) ++ (joinPath (d :: r2)).toList) = true
            cases hcl : c.toList with
            | nil => exact absurd hcl hcchars
            | cons x xs => simp [charListLt]
  · rw [hsplit, joinPath_append (comps.take a) ((comps.drop a).take (b - a)) hta hmidne]
    show charListLt (joinPath (comps.take a)).toList
      ((joinPath (comps.take a)) ++ joinPath ((comps.drop a).take (b - a))).toList = true
    have hd : ((joinPath (comps.take a)) ++
        joinPath ((comps.drop a).take (b - a))).toList =
        (joinPath (comps.take a)).toList ++
        (joinPath ((comps.drop a).take (b - a))).toList := by
      show ((joinPath (comps.take a)) ++ joinPath ((comps.drop a).take (b - a))).data = _
      exact String.data_append _ _
    rw [hd]
    refine charListLt_append _ _ ?_
    intro h0
    have := length_joinPath_ge_two _ hmidne hmidwf
    have hlen := congrArg List.length h0
    simp only [List.length_nil] at hlen
    have : (joinPath ((comps.drop a).take (b - a))).length =
        (joinPath ((comps.drop a).take (b - a))).toList.length := rfl
    omega

theorem joinPath_take_not_lt (comps : List String) (a b : Nat) (hab : b ≤ a) :
    pyStrLt (joinPath (comps.take a)) (joinPath (comps.take b)) = false := by
  have hsplit : comps.take a = comps.take b ++ (comps.drop b).take (a - b) := by
    rw [← List.take_add]
    congr 1
    omega
  by_cases hmid : (comps.drop b).take (a - b) = []
  · rw [hsplit, hmid, List.append_nil]
    show charListLt (joinPath (comps.take b)).toList (joinPath (comps.take b)).toList = false
    have := not_charListLt_append (joinPath (comps.take b)).toList []
    simpa using this
  · by_cases htb : comps.take b = []
    · rw [hsplit, htb, List.nil_append]
      show charListLt (joinPath ((comps.drop b).take (a - b))).toList (joinPath []).toList
        = false
      cases hm : (comps.drop b).take (a - b) with
      | nil => exact absurd hm hmid
      | cons c r =>
          cases r with
          | nil =>
              show charListLt ('/' :: c.toList) ['/'] = false
              have := not_charListLt_append ['/'] c.toList
              simpa using this
          | cons d r2 =>
              rw [joinPath_cons c (d :: r2) (by simp)]
              show charListLt (('/' :: c.toList) ++ (joinPath (d :: r2)).toList) ['/'] = false
              have := not_charListLt_append ['/'] (c.toList ++ (joinPath (d :: r2)).toList)
              simpa using this
    · rw [hsplit, joinPath_append (comps.take b) ((comps.drop b).take (a - b)) htb hmid]
      show charListLt ((joinPath (comps.take b)) ++
        joinPath ((comps.drop b).take (a - b))).toList (joinPath (comps.take b)).toList = false
      have hd : ((joinPath (comps.take b)) ++
          joinPath ((comps.drop b).take (a - b))).toList =
          (joinPath (comps.take b)).toList ++
          (joinPath ((comps.drop b).take (a - b))).toList := by
        show ((joinPath (comps.take b)) ++ joinPath ((comps.drop b).take (a - b))).data = _
        exact String.data_append _ _
      rw [hd]
      exact not_charListLt_append _ _

/-! ## Characterizing the marker-index selection (claim C7) -/

theorem getLast_mem_of_range_filter {p : Nat → Bool} {n j : Nat}
    (h : ((List.range n).filter p).getLast? = some j) :
    j < n ∧ p j = true := by
  have hmem : j ∈ (List.range n).filter p := List.mem_of_mem_getLast? h
  rw [List.mem_filter, List.mem_range] at hmem
  exact hmem

theorem getLast_max_of_sorted : ∀ (l : List Nat), l.Pairwise (· < ·) →
    ∀ j, l.getLast? = some j → ∀ i ∈ l, i ≤ j := by
  intro l
  induction l with
  | nil => intro _ j hj; cases hj
  | cons x xs ih =>
      intro hp j hj i hi
      cases hxs : xs with
      | nil =>
          rw [hxs] at hj
          simp only [List.getLast?_singleton] at hj
          cases hj
          rw [hxs] at hi
          simp only [List.mem_singleton] at hi
          omega
      | cons y ys =>
          rw [hxs] at hj
          rw [List.getLast?_cons_cons] at hj
          have hp' := (List.pairwise_cons.mp hp)
          rcases List.mem_cons.mp hi with rfl | hi2
          · have hxy : ∀ z ∈ xs, i < z := hp'.1
            have hj2 : j ∈ (y :: ys) := List.mem_of_mem_getLast? hj
            have := hxy j (by rw [hxs]; exact hj2)
            omega
          · exact ih hp'.2 j (by rw [hxs]; exact hj) i hi2

theorem range_filter_getLast_spec {p : Nat → Bool} {n j : Nat}
    (h : ((List.range n).filter p).getLast? = some j) :
    (j < n ∧ p j = true) ∧ ∀ i, i < n → p i = true → i ≤ j := by
  refine ⟨getLast_mem_of_range_filter h, ?_⟩
  intro i hi hpi
  have hsorted : ((List.range n).filter p).Pairwise (· < ·) :=
    (List.pairwise_lt_range n).filter p
  exact getLast_max_of_sorted _ hsorted j h i
    (List.mem_filter.mpr ⟨List.mem_range.mpr hi, hpi⟩)

theorem range_filter_getLast_none {p : Nat → Bool} {n : Nat}
    (h : ((List.range n).filter p).getLast? = none) :
    ∀ i, i < n → p i = false := by
  intro i hi
  by_contra hne
  have hpi : p i = true := by
    cases hp : p i with
    | false => exact absurd hp hne
    | true => rfl
  have hmem : i ∈ (List.range n).filter p :=
    List.mem_filter.mpr ⟨List.mem_range.mpr hi, hpi⟩
  rw [List.getLast?_eq_none_iff] at h
  rw [h] at hmem
  cases hmem

theorem joinPath_take_length_lt (comps : List String) (hwf : ∀ c ∈ comps, c ≠ "")
    (a b : Nat) (hab : a < b) (hb : b ≤ comps.length) :
    (joinPath (comps.take a)).length < (joinPath (comps.take b)).length := by
  have hsplit : comps.take b = comps.take a ++ (comps.drop a).take (b - a) := by
    rw [← List.take_add]
    congr 1
    omega
  have hmidne : (comps.drop a).take (b - a) ≠ [] := by
    intro h0
    have hlen := congrArg List.length h0
    rw [List.length_take, List.length_drop] at hlen
    simp at hlen
    omega
  have hmidwf : ∀ c ∈ (comps.drop a).take (b - a), c ≠ "" := by
    intro c hc
    exact hwf c (List.mem_of_mem_drop (List.mem_of_mem_take hc))
  have hmid2 := length_joinPath_ge_two _ hmidne hmidwf
  by_cases hta : comps.take a = []
  · rw [hsplit, hta, List.nil_append]
    have h1 : (joinPath ([] : List String)).length = 1 := rfl
    omega
  · rw [hsplit, joinPath_append (comps.take a) ((comps.drop a).take (b - a)) hta hmidne,
      String.length_append]
    omega

theorem joinPath_take_length_le_iff (comps : List String) (hwf : ∀ c ∈ comps, c ≠ "")
    (a b : Nat) (ha : a ≤ comps.length) (hb : b ≤ comps.length) :
    ((joinPath (comps.take a)).length ≤ (joinPath (comps.take b)).length) ↔ a ≤ b := by
  constructor
  · intro h
    by_contra hab
    have := joinPath_take_length_lt comps hwf b a (by omega) ha
    omega
  · intro h
    rcases Nat.lt_or_ge a b with hlt | hge
    · exact le_of_lt (joinPath_take_length_lt comps hwf a b hlt hb)
    · have : a = b := by omega
      subst this
      exact le_refl _

theorem foldl_max_eq : ∀ (l : List Nat) (a j : Nat), (j = a ∨ j ∈ l) → a ≤ j →
    (∀ x ∈ l, x ≤ j) → l.foldl Nat.max a = j := by
  intro l
  induction l with
  | nil =>
      intro a j hmem _ _
      rcases hmem with rfl | hmem
      · rfl
      · cases hmem
  | cons x xs ih =>
      intro a j hmem hle hall
      simp only [List.foldl_cons]
      have hx : x ≤ j := hall x (List.mem_cons_self _ _)
      have hmax : Nat.max a x ≤ j := Nat.max_le.mpr ⟨hle, hx⟩
      have htail : ∀ y ∈ xs, y ≤ j := fun y hy => hall y (List.mem_cons_of_mem _ hy)
      rcases hmem with rfl | hmem
      · refine ih _ _ (Or.inl ?_) hmax htail
        exact (Nat.max_eq_left hx).symm
      · rcases List.mem_cons.mp hmem with rfl | hmem2
        · refine ih _ _ (Or.inl ?_) hmax htail
          exact (Nat.max_eq_right hle).symm
        · exact ih _ _ (Or.inr hmem2) hmax htail

theorem pick_fold_some (comps : List String) (hwf : ∀ c ∈ comps, c ≠ "") :
    ∀ (l : List Nat) (a : Nat), (∀ x ∈ l, x + 1 ≤ comps.length) → a + 1 ≤ comps.length →
    l.foldl (fun acc i =>
      match acc with
      | none => some i
      | some j =>
          if (joinPath (comps.take (j + 1))).length ≤ (joinPath (comps.take (i + 1))).length
          then some i else some j) (some a) = some (l.foldl Nat.max a) := by
  intro l
  induction l with
  | nil => intro a _ _; rfl
  | cons x xs ih =>
      intro a hl ha
      have hx : x + 1 ≤ comps.length := hl x (List.mem_cons_self _ _)
      have hxs : ∀ y ∈ xs, y + 1 ≤ comps.length := fun y hy => hl y (List.mem_cons_of_mem _ hy)
      simp only [List.foldl_cons]
      have hstep : (if (joinPath (comps.take (a + 1))).length ≤
          (joinPath (comps.take (x + 1))).length then some x else some a) =
          some (Nat.max a x) := by
        by_cases hax : a ≤ x
        · rw [if_pos ((joinPath_take_length_le_iff comps hwf (a + 1) (x + 1) ha hx).mpr
            (by omega))]
          exact congrArg some (Nat.max_eq_right hax).symm
        · rw [if_neg ?hneg]
          · exact congrArg some (Nat.max_eq_left (Nat.le_of_not_le hax)).symm
          case hneg =>
            intro hcon
            exact hax (by have := (joinPath_take_length_le_iff comps hwf
              (a + 1) (x + 1) ha hx).mp hcon; omega)
      rw [hstep]
      refine ih (Nat.max a x) hxs ?_
      rcases Nat.le_total a x with h | h
      · have hm : Nat.max a x = x := Nat.max_eq_right h
        rw [hm]
        exact hx
      · have hm : Nat.max a x = a := Nat.max_eq_left h
        rw [hm]
        exact ha

theorem candIdxs_valid (comps : List String) :
    ∀ i ∈ candIdxs comps, subfolderNames.contains (comps.getD i "") = true ∧
      1 ≤ i ∧ i + 1 < comps.length := by
  intro i hi
  simp only [candIdxs, List.mem_filterMap] at hi
  obtain ⟨m, hm, hlast⟩ := hi
  have hspec := range_filter_getLast_spec hlast
  obtain ⟨⟨-, hp⟩, -⟩ := hspec
  simp only [Bool.and_eq_true, beq_iff_eq, decide_eq_true_eq] at hp
  obtain ⟨⟨heq, h1⟩, h2⟩ := hp
  refine ⟨?_, h1, h2⟩
  rw [heq]
  simpa using hm

theorem valid_le_cand (comps : List String) (i : Nat)
    (hcont : subfolderNames.contains (comps.getD i "") = true)
    (h1 : 1 ≤ i) (h2 : i + 1 < comps.length) :
    ∃ j ∈ candIdxs comps, i ≤ j := by
  have hmem : comps.getD i "" ∈ subfolderNames := by simpa using hcont
  cases hlast : lastMarkerIdx comps (comps.getD i "") with
  | none =>
      exfalso
      have hnone := range_filter_getLast_none hlast
      have hfalse := hnone i (by omega)
      simp at hfalse
      omega
  | some j =>
      refine ⟨j, ?_, ?_⟩
      · simp only [candIdxs, List.mem_filterMap]
        exact ⟨comps.getD i "", hmem, hlast⟩
      · have hspec := range_filter_getLast_spec hlast
        exact hspec.2 i (by omega) (by
          simp only [Bool.and_eq_true, beq_iff_eq, decide_eq_true_eq]
          exact ⟨⟨by simp, h1⟩, h2⟩)

theorem findRepoRoot_lt (probe : List String → Bool) (comps : List String) (k : Nat)
    (h : findRepoRoot probe comps = some k) : k < comps.length := by
  have hmem := List.mem_of_find?_eq_some h
  rw [List.mem_reverse, List.mem_range] at hmem
  exact hmem

theorem pickBestIdx_eq_amendedIdx (comps : List String) (hwf : ∀ c ∈ comps, c ≠ "") :
    pickBestIdx comps = amendedIdx comps := by
  cases ha : amendedIdx comps with
  | none =>
      have hnone := range_filter_getLast_none ha
      have hc : candIdxs comps = [] := by
        cases hcand : candIdxs comps with
        | nil => rfl
        | cons x xs =>
            exfalso
            have hv := candIdxs_valid comps x (by rw [hcand]; exact List.mem_cons_self _ _)
            have hfx := hnone x (by omega)
            rw [Bool.and_eq_false_iff, Bool.and_eq_false_iff] at hfx
            rcases hfx with (hf | hf) | hf
            · rw [hv.1] at hf
              cases hf
            · simp only [decide_eq_false_iff_not] at hf
              omega
            · simp only [decide_eq_false_iff_not] at hf
              omega
      simp [pickBestIdx, hc]
  | some j =>
      have hspec := range_filter_getLast_spec ha
      simp only [Bool.and_eq_true, decide_eq_true_eq] at hspec
      obtain ⟨⟨hjlen, ⟨hjc, hj1⟩, hj2⟩, hmaxv⟩ := hspec
      have hjin : j ∈ candIdxs comps := by
        obtain ⟨j', hj'in, hjj'⟩ := valid_le_cand comps j hjc hj1 hj2
        have hv' := candIdxs_valid comps j' hj'in
        have hj'le : j' ≤ j := by
          exact hmaxv j' (by omega) ⟨⟨hv'.1, hv'.2.1⟩, hv'.2.2⟩
        have : j' = j := by omega
        subst this
        exact hj'in
      have hallle : ∀ x ∈ candIdxs comps, x ≤ j := by
        intro x hx
        have hv := candIdxs_valid comps x hx
        exact hmaxv x (by omega) ⟨⟨hv.1, hv.2.1⟩, hv.2.2⟩
      have hbound : ∀ x ∈ candIdxs comps, x + 1 ≤ comps.length := by
        intro x hx
        have := candIdxs_valid comps x hx
        omega
      cases hcand : candIdxs comps with
      | nil =>
          exfalso
          rw [hcand] at hjin
          cases hjin
      | cons c cs =>
          unfold pickBestIdx
          rw [hcand, List.foldl_cons]
          rw [pick_fold_some comps hwf cs c
            (fun y hy => hbound y (by rw [hcand]; exact List.mem_cons_of_mem _ hy))
            (hbound c (by rw [hcand]; exact List.mem_cons_self _ _))]
          refine congrArg some (foldl_max_eq cs c j ?_ ?_ ?_)
          · rcases List.mem_cons.mp (hcand ▸ hjin) with rfl | hj
            · exact Or.inl rfl
            · exact Or.inr hj
          · exact hallle c (by rw [hcand]; exact List.mem_cons_self _ _)
          · intro x hx
            exact hallle x (by rw [hcand]; exact List.mem_cons_of_mem _ hx)

/-- C7 (amended): the group key is computed by taking the longest ancestor
path prefix ending in `include`, `src` or `test`, provided the marker is
not the leading path component; if a version-control root was found and
its path string sorts greater than that base, the key becomes the base
path relative to that root; files with no (amended) marker match get the
empty-string key. -/
theorem c7_group_key_amended (probe : List String → Bool) (comps : List String)
    (hwf : ∀ c ∈ comps, c ≠ "") :
    appendRoot probe comps = amendedGroupKey probe comps := by
  unfold appendRoot amendedGroupKey
  rw [← pickBestIdx_eq_amendedIdx comps hwf]
  cases hpick : pickBestIdx comps with
  | some i =>
      dsimp only
  | none =>
      dsimp only
      cases hrr : findRepoRoot probe comps with
      | none => rfl
      | some k =>
          have hk := findRepoRoot_lt probe comps k hrr
          have hfalse : pyStrLt (joinPath comps.dropLast) (joinPath (comps.take k)) = false := by
            have hdl : comps.dropLast = comps.take (comps.length - 1) :=
              (List.dropLast_eq_take comps).symm ▸ rfl
            rw [hdl]
            exact joinPath_take_not_lt comps (comps.length - 1) k (by omega)
          dsimp only
          rw [hfalse]
          rfl

/-- C7 witness: a repository root below the matched `src` prefix makes the
key the relative path `..`; the amended rule computes the same key. -/
theorem c7_group_key_amended_witness :
    appendRoot (fun l => l == ["a", "src", "proj"]) ["a", "src", "proj", "f.c"] =
      amendedGroupKey (fun l => l == ["a", "src", "proj"]) ["a", "src", "proj", "f.c"]
    ∧ appendRoot (fun l => l == ["a", "src", "proj"]) ["a", "src", "proj", "f.c"] = ".." := by
  refine ⟨c7_group_key_amended _ _ (by decide), by decide⟩

/-! ## Pruning of ignore-marked directories (claim C9) -/

theorem walkChildren_eq (exts base : List String) :
    ∀ dirs, walkChildren exts base dirs =
      (dirsToList dirs).map (fun p => (p.1, walkTree exts (base ++ [p.1]) p.2)) := by
  intro dirs
  induction dirs using dirsToList.induct with
  | case1 => rfl
  | case2 n t r ih =>
      simp only [walkChildren, dirsToList, List.map_cons]
      rw [ih]

theorem dirsToList_name_mem : ∀ (dirs : FSDirs) (p : String × FSTree),
    p ∈ dirsToList dirs → p.1 ∈ dirNames dirs := by
  intro dirs
  induction dirs using dirsToList.induct with
  | case1 => intro p hp; cases hp
  | case2 n t r ih =>
      intro p hp
      rcases List.mem_cons.mp hp with rfl | hp2
      · exact List.mem_cons_self _ _
      · exact List.mem_cons_of_mem _ (ih p hp2)

theorem dirsWF_mem : ∀ (dirs : FSDirs), dirsWF dirs = true →
    ∀ p ∈ dirsToList dirs, treeWF p.2 = true := by
  intro dirs
  induction dirs using dirsToList.induct with
  | case1 => intro _ p hp; cases hp
  | case2 n t r ih =>
      intro hwf p hp
      simp only [dirsWF, Bool.and_eq_true] at hwf
      rcases List.mem_cons.mp hp with rfl | hp2
      · exact hwf.1
      · exact ih hwf.2 p hp2

theorem findSubdirIn_name : ∀ (dirs : FSDirs) (d : String) (c : FSTree),
    findSubdir.findSubdirIn dirs d = some c →
    d ∈ dirNames dirs ∧ (d, c) ∈ dirsToList dirs := by
  intro dirs
  induction dirs using dirsToList.induct with
  | case1 => intro d c h; cases h
  | case2 n t r ih =>
      intro d c h
      simp only [findSubdir.findSubdirIn] at h
      split at h
      · cases h
        subst_vars
        exact ⟨List.mem_cons_self _ _, List.mem_cons_self _ _⟩
      · obtain ⟨h1, h2⟩ := ih d c h
        exact ⟨List.mem_cons_of_mem _ h1, List.mem_cons_of_mem _ h2⟩

theorem findSubdirIn_unique : ∀ (dirs : FSDirs) (d : String) (c tn : FSTree),
    namesDistinct (dirNames dirs) = true →
    findSubdir.findSubdirIn dirs d = some c → (d, tn) ∈ dirsToList dirs → tn = c := by
  intro dirs
  induction dirs using dirsToList.induct with
  | case1 => intro d c tn _ h hm; cases h
  | case2 n t r ih =>
      intro d c tn hdist h hm
      simp only [dirNames, namesDistinct, Bool.and_eq_true] at hdist
      simp only [findSubdir.findSubdirIn] at h
      split at h
      · cases h
        rename_i hnd
        rcases List.mem_cons.mp hm with heq | hm2
        · exact congrArg Prod.snd heq
        · exfalso
          have hmem := dirsToList_name_mem r (d, tn) hm2
          rw [← hnd] at hmem
          have hcontains : (dirNames r).contains n = true := by simpa using hmem
          rw [hcontains] at hdist
          simp at hdist
      · rename_i hnd
        rcases List.mem_cons.mp hm with heq | hm2
        · cases heq
          exact absurd rfl hnd
        · exact ih d c tn hdist.2 h hm2

theorem walkTree_prefix (exts : List String) (base0 : List String) (t0 : FSTree) :
    ∀ fp ∈ walkTree exts base0 t0, base0 <+: fp := by
  refine walkTree.induct exts
    (fun base t => ∀ fp ∈ walkTree exts base t, base <+: fp)
    (fun base dirs => ∀ pr ∈ walkChildren exts base dirs, ∀ fp ∈ pr.2,
      (base ++ [pr.1]) <+: fp)
    ?_ ?_ ?_ ?_ base0 t0
  · intro base files dirs hmark
    intro fp hfp
    rw [walkTree] at hfp
    rw [if_pos hmark] at hfp
    cases hfp
  · intro base files dirs hmark ih2
    intro fp hfp
    rw [walkTree] at hfp
    rw [if_neg hmark] at hfp
    rcases List.mem_append.mp hfp with hf | hc
    · obtain ⟨f, -, rfl⟩ := List.mem_map.mp hf
      exact List.prefix_append base [f]
    · obtain ⟨l, hl, hfl⟩ := List.mem_flatten.mp hc
      obtain ⟨pr, hpr, rfl⟩ := List.mem_map.mp hl
      have hpr2 : pr ∈ (walkChildren exts base dirs).filter (fun c => visibleName c.1) :=
        (List.perm_insertionSort _ _).subset hpr
      have hpr3 : pr ∈ walkChildren exts base dirs := List.mem_of_mem_filter hpr2
      exact (List.prefix_append base [pr.1]).trans (ih2 pr hpr3 fp hfl)
  · intro base pr hpr
    cases hpr
  · intro base n t r ih1 ih2
    intro pr hpr fp hfp
    rcases List.mem_cons.mp hpr with rfl | hpr2
    · exact ih1 fp hfp
    · exact ih2 pr hpr2 fp hfp

theorem namesDistinct_append_right : ∀ (l1 l2 : List String),
    namesDistinct (l1 ++ l2) = true → namesDistinct l2 = true := by
  intro l1
  induction l1 with
  | nil => intro l2 h; exact h
  | cons x xs ih =>
      intro l2 h
      simp only [List.cons_append, namesDistinct, Bool.and_eq_true] at h
      exact ih l2 h.2

theorem namesDistinct_cross : ∀ (l1 l2 : List String) (x : String),
    namesDistinct (l1 ++ l2) = true → x ∈ l1 → x ∈ l2 → False := by
  intro l1
  induction l1 with
  | nil => intro l2 x _ h1 _; cases h1
  | cons y ys ih =>
      intro l2 x h h1 h2
      simp only [List.cons_append, namesDistinct, Bool.and_eq_true, List.append_eq] at h
      rcases List.mem_cons.mp h1 with rfl | h1b
      · have : x ∈ ys ++ l2 := List.mem_append_right _ h2
        have hcont : (ys ++ l2).contains x = true := by simpa using this
        rw [hcont] at h
        simp at h
      · exact ih l2 x h.2 h1b h2

theorem walk_no_marked_descendant (exts : List String) (sub : FSTree)
    (hmark : hasIgnoreRoot sub = true) :
    ∀ (rel base : List String) (t : FSTree), treeWF t = true →
      findSubdir t rel = some sub → ∀ fp ∈ walkTree exts base t, ¬ (base ++ rel) <+: fp := by
  intro rel
  induction rel with
  | nil =>
      intro base t hwf hfind fp hfp hpre
      simp only [findSubdir] at hfind
      cases hfind
      cases sub with
      | node fs ds =>
          rw [walkTree, if_pos (by simpa [hasIgnoreRoot] using hmark)] at hfp
          cases hfp
  | cons d rel' ih =>
      intro base t hwf hfind fp hfp hpre
      cases t with
      | node files dirs =>
          simp only [findSubdir] at hfind
          cases hin : findSubdir.findSubdirIn dirs d with
          | none =>
              rw [hin] at hfind
              cases hfind
          | some c =>
              rw [hin] at hfind
              simp only [treeWF, Bool.and_eq_true] at hwf
              rw [walkTree] at hfp
              by_cases hm : hasIgnoreMarker files dirs = true
              · rw [if_pos hm] at hfp
                cases hfp
              · rw [if_neg hm] at hfp
                rcases List.mem_append.mp hfp with hf | hc
                · obtain ⟨f, hfmem, rfl⟩ := List.mem_map.mp hf
                  rw [List.prefix_append_right_inj] at hpre
                  rw [show [f] = f :: ([] : List String) from rfl,
                    List.cons_prefix_cons] at hpre
                  obtain ⟨heqdf, -⟩ := hpre
                  have hfin : f ∈ files := by
                    have h1 := List.mem_of_mem_filter hfmem
                    exact (List.perm_insertionSort _ _).subset h1
                  have hdn : d ∈ dirNames dirs := (findSubdirIn_name dirs d c hin).1
                  rw [← heqdf] at hfin
                  exact namesDistinct_cross files (dirNames dirs) d hwf.1 hfin hdn
                · obtain ⟨l, hl, hfl⟩ := List.mem_flatten.mp hc
                  obtain ⟨pr, hpr, rfl⟩ := List.mem_map.mp hl
                  have hpr3 : pr ∈ walkChildren exts base dirs :=
                    List.mem_of_mem_filter ((List.perm_insertionSort _ _).subset hpr)
                  rw [walkChildren_eq] at hpr3
                  obtain ⟨p, hpmem, rfl⟩ := List.mem_map.mp hpr3
                  by_cases hpd : p.1 = d
                  · have hdist2 : namesDistinct (dirNames dirs) = true :=
                      namesDistinct_append_right files (dirNames dirs) hwf.1
                    have hpc : p.2 = c := by
                      refine findSubdirIn_unique dirs d c p.2 hdist2 hin ?_
                      rw [← hpd]
                      simpa using hpmem
                    have hcw : treeWF c = true := by
                      rw [← hpc]
                      exact dirsWF_mem dirs hwf.2 p hpmem
                    have hpre2 : ((base ++ [d]) ++ rel') <+: fp := by
                      have hsplit : base ++ d :: rel' = (base ++ [d]) ++ rel' := by simp
                      rw [← hsplit]
                      exact hpre
                    refine ih (base ++ [d]) c hcw hfind fp ?_ hpre2
                    rw [hpd] at hfl
                    rw [← hpc]
                    exact hfl
                  · have hw1 := walkTree_prefix exts (base ++ [p.1]) p.2 fp hfl
                    rcases List.prefix_or_prefix_of_prefix hw1 hpre with hx | hx
                    · rw [List.prefix_append_right_inj] at hx
                      rw [List.cons_prefix_cons] at hx
                      exact hpd hx.1
                    · rw [List.prefix_append_right_inj] at hx
                      rw [List.cons_prefix_cons] at hx
                      exact hpd hx.1.symm

/-- C9: a sentinel `AMENT_IGNORE` entry in a subdirectory prunes it: the
walk of the marked directory itself yields no files (it is never descended
into), and no file whose path lies under that subdirectory appears in the
discovery results of the enclosing tree. -/
theorem c9_ignore_marker_prunes (exts base : List String) (t : FSTree)
    (rel : List String) (sub : FSTree)
    (hwf : treeWF t = true) (hfind : findSubdir t rel = some sub)
    (hmark : hasIgnoreRoot sub = true) :
    walkTree exts (base ++ rel) sub = [] ∧
    ∀ fp ∈ walkTree exts base t, ¬ (base ++ rel) <+: fp := by
  constructor
  · cases sub with
    | node fs ds =>
        rw [walkTree, if_pos (by simpa [hasIgnoreRoot] using hmark)]
  · exact walk_no_marked_descendant exts sub hmark rel base t hwf hfind

theorem c9_ignore_marker_prunes_witness :
    treeWF (FSTree.node ["a.cpp"]
      (.cons "gen" (.node ["AMENT_IGNORE", "bad.cpp"] .nil)
        (.cons "sub" (.node ["b.c"] .nil) .nil))) = true ∧
    findSubdir (FSTree.node ["a.cpp"]
      (.cons "gen" (.node ["AMENT_IGNORE", "bad.cpp"] .nil)
        (.cons "sub" (.node ["b.c"] .nil) .nil))) ["gen"] =
      some (FSTree.node ["AMENT_IGNORE", "bad.cpp"] .nil) ∧
    hasIgnoreRoot (FSTree.node ["AMENT_IGNORE", "bad.cpp"] .nil) = true ∧
    (walkTree cExtensions (["root"] ++ ["gen"])
        (FSTree.node ["AMENT_IGNORE", "bad.cpp"] .nil) = [] ∧
      ∀ fp ∈ walkTree cExtensions ["root"]
          (FSTree.node ["a.cpp"]
            (.cons "gen" (.node ["AMENT_IGNORE", "bad.cpp"] .nil)
              (.cons "sub" (.node ["b.c"] .nil) .nil))),
        ¬ (["root"] ++ ["gen"]) <+: fp) :=
  ⟨by decide, rfl, by decide,
    c9_ignore_marker_prunes cExtensions ["root"]
      (FSTree.node ["a.cpp"]
        (.cons "gen" (.node ["AMENT_IGNORE", "bad.cpp"] .nil)
          (.cons "sub" (.node ["b.c"] .nil) .nil))) ["gen"]
      (FSTree.node ["AMENT_IGNORE", "bad.cpp"] .nil)
      (by decide) rfl (by decide)⟩
